import Mathlib

/-!
Verification development for the sealed-inventory repository.

Shallow embedding of the JavaScript source:
  - inventoryStore.js  (schema normalization, atomic writes, backups)
  - updatePrices.js    (sliding-window rate limiter, batch reconciliation)
  - discordBot.js      (portfolio persistence and baseline locking)
  - server.js POST /api/inventory (admin sync + new-stock events)

JavaScript numbers are modelled as rationals (money arithmetic in the
claims stays in the exactly-representable range), strings as Lean strings
over their character lists, and host-library behaviour (Date, JSON) as
small explicitly-documented models.
-/

set_option maxHeartbeats 1600000

namespace SealedMenu

/-! ## JS string primitives -/

/-- Whitespace test used by the model of JS `String.prototype.trim`. -/
def isWs (c : Char) : Bool := c.toNat = 32 || c.toNat = 9 || c.toNat = 10 || c.toNat = 13

/-- Characters of a trimmed string: whitespace stripped from both ends. -/
def trimChars (l : List Char) : List Char :=
  ((l.dropWhile isWs).reverse.dropWhile isWs).reverse

/-- Model of JS `s.trim()`. -/
def jsTrim (s : String) : String := ⟨trimChars s.data⟩

/-- ASCII lower-casing of one character (model of JS `toLowerCase`). -/
def lowerChar (c : Char) : Char :=
  if 65 ≤ c.toNat ∧ c.toNat ≤ 90 then Char.ofNat (c.toNat + 32) else c

/-- Model of JS `s.toLowerCase()`. -/
def lowerStr (s : String) : String := ⟨s.data.map lowerChar⟩

/-- `String(b)` for a JS boolean. -/
def boolStr (b : Bool) : String := if b then "true" else "false"

/-- Model of JS number-to-string conversion: some deterministic whitespace-free
rendering (JS never prints whitespace inside a number). -/
def numToStr (q : ℚ) : String := ⟨(toString q).data.filter (fun c => !(isWs c))⟩

/-! ### Lemmas about trim / lower -/

theorem dropWhile_head_false (p : Char → Bool) (l : List Char) :
    ∀ c ∈ (l.dropWhile p).head?, p c = false := by
  induction l with
  | nil => intro c hc; simp at hc
  | cons a t ih =>
      intro c hc
      by_cases h : p a
      · rw [List.dropWhile_cons_of_pos h] at hc; exact ih c hc
      · rw [List.dropWhile_cons_of_neg h] at hc
        simp at hc
        subst hc
        simpa using h

theorem dropWhile_eq_self_of_head (p : Char → Bool) (l : List Char)
    (h : ∀ c ∈ l.head?, p c = false) : l.dropWhile p = l := by
  cases l with
  | nil => rfl
  | cons a t =>
      have ha : p a = false := h a (by simp)
      simp [List.dropWhile_cons, ha]

theorem dropWhile_of_dropWhile (p : Char → Bool) (l : List Char) :
    (l.dropWhile p).dropWhile p = l.dropWhile p :=
  dropWhile_eq_self_of_head p _ (dropWhile_head_false p l)

theorem trimChars_idem (l : List Char) : trimChars (trimChars l) = trimChars l := by
  unfold trimChars
  set A := l.dropWhile isWs with hA
  set C := A.reverse.dropWhile isWs with hC
  -- the trimmed list T = C.reverse is a prefix of A, so its head fails isWs
  have hsuffix : C <:+ A.reverse := List.dropWhile_suffix isWs
  have hpre : C.reverse <+: A := by
    rcases hsuffix with ⟨w, hw⟩
    exact ⟨w.reverse, by rw [← List.reverse_append, hw, List.reverse_reverse]⟩
  have hhead : ∀ c ∈ C.reverse.head?, isWs c = false := by
    intro c hc
    rcases hpre with ⟨w, hw⟩
    have hcA : c ∈ A.head? := by
      cases hrev : C.reverse with
      | nil => rw [hrev] at hc; simp at hc
      | cons x xs =>
          rw [hrev] at hc; simp at hc; subst hc
          rw [← hw, hrev]; simp
    exact dropWhile_head_false isWs l c (by rwa [← hA])
  rw [dropWhile_eq_self_of_head isWs C.reverse hhead, List.reverse_reverse,
    dropWhile_eq_self_of_head isWs C (dropWhile_head_false isWs A.reverse)]

theorem jsTrim_idem (s : String) : jsTrim (jsTrim s) = jsTrim s := by
  unfold jsTrim
  exact congrArg String.mk (trimChars_idem s.data)

/-- A list all of whose characters fail `isWs` trims to itself. -/
theorem trimChars_eq_self (l : List Char) (h : ∀ c ∈ l, isWs c = false) :
    trimChars l = l := by
  unfold trimChars
  rw [dropWhile_eq_self_of_head isWs l (fun c hc => h c (List.mem_of_mem_head? hc))]
  rw [dropWhile_eq_self_of_head isWs l.reverse (fun c hc =>
    h c (List.mem_reverse.1 (List.mem_of_mem_head? hc)))]
  exact List.reverse_reverse l

theorem jsTrim_eq_self_of_wsFree (s : String) (h : ∀ c ∈ s.data, isWs c = false) :
    jsTrim s = s := by
  unfold jsTrim
  cases s with
  | mk d => exact congrArg String.mk (trimChars_eq_self d h)

theorem numToStr_wsFree (q : ℚ) : ∀ c ∈ (numToStr q).data, isWs c = false := by
  intro c hc
  unfold numToStr at hc
  simp at hc
  simpa using hc.2

theorem jsTrim_numToStr (q : ℚ) : jsTrim (numToStr q) = numToStr q :=
  jsTrim_eq_self_of_wsFree _ (numToStr_wsFree q)

theorem toNat_ofNat_small (n : Nat) (h : n < 55296) : (Char.ofNat n).toNat = n := by
  have hv : n.isValidChar := Or.inl h
  simp [Char.ofNat, hv, Char.ofNatAux, Char.toNat, UInt32.toNat]

theorem isWs_lowerChar (c : Char) : isWs (lowerChar c) = isWs c := by
  unfold lowerChar
  by_cases h : 65 ≤ c.toNat ∧ c.toNat ≤ 90
  · rw [if_pos h]
    have h1 : (Char.ofNat (c.toNat + 32)).toNat = c.toNat + 32 :=
      toNat_ofNat_small _ (by omega)
    unfold isWs
    rw [h1]
    have hl : (decide (c.toNat + 32 = 32) || decide (c.toNat + 32 = 9) ||
        decide (c.toNat + 32 = 10) || decide (c.toNat + 32 = 13)) = false := by
      simp; omega
    have hr : (decide (c.toNat = 32) || decide (c.toNat = 9) ||
        decide (c.toNat = 10) || decide (c.toNat = 13)) = false := by
      simp; omega
    rw [hl, hr]
  · rw [if_neg h]

theorem lowerChar_idem (c : Char) : lowerChar (lowerChar c) = lowerChar c := by
  unfold lowerChar
  by_cases h : 65 ≤ c.toNat ∧ c.toNat ≤ 90
  · rw [if_pos h]
    have h1 : (Char.ofNat (c.toNat + 32)).toNat = c.toNat + 32 :=
      toNat_ofNat_small _ (by omega)
    rw [if_neg (by omega)]
  · rw [if_neg h, if_neg h]

theorem lowerStr_idem (s : String) : lowerStr (lowerStr s) = lowerStr s := by
  unfold lowerStr
  refine congrArg String.mk ?_
  rw [List.map_map]
  exact List.map_congr_left (fun c _ => lowerChar_idem c)

theorem trimChars_map_lower (l : List Char) :
    trimChars (l.map lowerChar) = (trimChars l).map lowerChar := by
  unfold trimChars
  have hcomp : (isWs ∘ lowerChar) = isWs := funext isWs_lowerChar
  rw [List.dropWhile_map, hcomp, ← List.map_reverse, List.dropWhile_map, hcomp,
    List.map_reverse]

theorem jsTrim_lowerStr (s : String) : jsTrim (lowerStr s) = lowerStr (jsTrim s) := by
  unfold jsTrim lowerStr
  exact congrArg String.mk (trimChars_map_lower s.data)

/-- A list containing a non-whitespace character trims to a nonempty list. -/
theorem trimChars_ne_nil (l : List Char) (c : Char) (hc : c ∈ l) (hws : isWs c = false) :
    trimChars l ≠ [] := by
  have key : ∀ (m : List Char), c ∈ m → m.dropWhile isWs ≠ [] := by
    intro m hm
    induction m with
    | nil => simp at hm
    | cons a t ih =>
        by_cases h : isWs a
        · rw [List.dropWhile_cons_of_pos h]
          rcases List.mem_cons.1 hm with rfl | hmt
          · rw [hws] at h; simp at h
          · exact ih hmt
        · rw [List.dropWhile_cons_of_neg h]; simp
  unfold trimChars
  intro hcontra
  have h2 : (l.dropWhile isWs).reverse.dropWhile isWs = [] := by
    have := congrArg List.reverse hcontra
    rwa [List.reverse_reverse] at this
  have hcmem : c ∈ (l.dropWhile isWs).reverse := by
    rw [List.mem_reverse]
    -- c survives the first dropWhile: dropWhile keeps a suffix, and c can
    -- only be dropped if isWs c, which is false
    have : ∀ (m : List Char), c ∈ m → c ∈ m.dropWhile isWs := by
      intro m hm
      induction m with
      | nil => simp at hm
      | cons a t ih =>
          by_cases h : isWs a
          · rw [List.dropWhile_cons_of_pos h]
            rcases List.mem_cons.1 hm with rfl | hmt
            · rw [hws] at h; simp at h
            · exact ih hmt
          · rwa [List.dropWhile_cons_of_neg h]
    exact this l hc
  exact key _ hcmem h2

/-! ## JS values and coercions (inventoryStore.js helpers) -/

/-- A JSON/JS field value as seen by the normalizer: absent key, null,
string, number (modelled as a rational), boolean, or any other object. -/
inductive JVal where
  | undefined : JVal
  | jnull : JVal
  | jstr : String → JVal
  | jnum : ℚ → JVal
  | jbool : Bool → JVal
  | jobj : JVal
deriving DecidableEq, Repr

/-- `toSafeString` from inventoryStore.js: null/undefined stay null, strings
are trimmed, numbers and booleans are rendered with `String(v)`, anything
else becomes null. -/
def toSafeString : JVal → Option String
  | .undefined => none
  | .jnull => none
  | .jstr s => some (jsTrim s)
  | .jnum q => some (numToStr q)
  | .jbool b => some (boolStr b)
  | .jobj => none

/-- Model of JS `Number(s)` on strings (`none` = NaN): the empty/whitespace
string is 0, unsigned decimal digit strings parse to their value, anything
else is NaN.  This simplified parser covers the numeral shapes the claims
exercise; all other strings conservatively map to NaN. -/
def strNum (s : String) : Option ℚ :=
  let t := jsTrim s
  if t = "" then some 0
  else if t.data.all Char.isDigit then
    some ((t.data.map (fun c => ((c.toNat - 48 : ℕ) : ℚ))).foldl (fun a d => a * 10 + d) 0)
  else none

/-- Model of JS `Number(v)` (`none` = NaN or an infinity, i.e. not finite). -/
def jsNum : JVal → Option ℚ
  | .jnull => some 0
  | .undefined => none
  | .jstr s => strNum s
  | .jnum q => some q
  | .jbool b => some (if b then 1 else 0)
  | .jobj => none

/-- JS `Math.trunc` on a rational. -/
def jsTrunc (q : ℚ) : ℤ := if 0 ≤ q then ⌊q⌋ else ⌈q⌉

/-- `toInt(v, 0)` from inventoryStore.js: `Math.max(0, Math.trunc(Number(v)))`
with null/undefined/empty-string/NaN falling back to 0. -/
def toIntJs (v : JVal) : ℕ :=
  if v = .jnull ∨ v = .undefined ∨ v = .jstr "" then 0
  else match jsNum v with
    | none => 0
    | some q => (jsTrunc q).toNat

/-- `Math.round(q * 100) / 100`, rounding to cents (JS `Math.round` is
`floor(x + 0.5)`). -/
def round2 (q : ℚ) : ℚ := ((⌊q * 100 + 1/2⌋ : ℤ) : ℚ) / 100

/-- `toMoney` from inventoryStore.js. -/
def toMoney (v : JVal) : Option ℚ :=
  if v = .jnull ∨ v = .undefined ∨ v = .jstr "" then none
  else match jsNum v with
    | none => none
    | some q => some (round2 q)

/-- Model of the host `new Date(s)` / `toISOString()` canonicalization
(not repository code): strings beginning with `@` stand for canonical
ISO renderings (they re-parse to themselves), strings beginning with `#`
stand for parseable non-canonical date strings (they canonicalize by
replacing the marker), and everything else is an invalid date. -/
def jsDateCanon (s : String) : Option String :=
  match s.data with
  | '@' :: _ => some s
  | '#' :: rest => some ⟨'@' :: rest⟩
  | _ => none

/-- `isNonEmptyString` from inventoryStore.js. -/
def isNonEmptyString : JVal → Bool
  | .jstr s => jsTrim s ≠ ""
  | _ => false

/-- `toIsoOrNull` from inventoryStore.js, over the date model. -/
def toIsoOrNull (v : JVal) : Option String :=
  match v with
  | .jstr s => if jsTrim s = "" then none else jsDateCanon s
  | _ => none

/-- `normalizeGame` from inventoryStore.js. -/
def normalizeGame (v : JVal) : Option String :=
  match v with
  | .jstr s =>
      if jsTrim s = "" then none
      else
        let g := lowerStr (jsTrim s)
        if g = "pokémon" ∨ g = "poke" then some "pokemon"
        else if g = "magic: the gathering" then some "mtg"
        else some g
  | _ => none

/-- JS truthiness guard `if (x) out.k = x` for an optional string. -/
def optNonempty : Option String → Option String
  | some s => if s = "" then none else some s
  | none => none

/-! ## Canonical items and normalization (inventoryStore.js) -/

/-- A raw inventory record as the store receives it: each recognized key
holds an arbitrary JS value, and `extra` collects every key outside the
`ALLOWED_ITEM_KEYS` allow-list (dropped by the schema lock). -/
structure RawItem where
  name : JVal := .undefined
  setName : JVal := .undefined
  quantity : JVal := .undefined
  marketPrice : JVal := .undefined
  yourPrice : JVal := .undefined
  lastUpdated : JVal := .undefined
  tcgPlayerId : JVal := .undefined
  tcgPlayerUrl : JVal := .undefined
  imageUrl : JVal := .undefined
  game : JVal := .undefined
  extra : List (String × JVal) := []
deriving DecidableEq, Repr

/-- A canonical item after `normalizeItem`: only allow-listed fields,
`Option` models key presence in the serialized object. -/
@[ext] structure Item where
  name : String
  setName : Option String
  quantity : ℕ
  marketPrice : Option ℚ
  yourPrice : Option ℚ
  lastUpdated : Option String
  tcgPlayerId : Option String
  tcgPlayerUrl : Option String
  imageUrl : Option String
  game : Option String
deriving DecidableEq, Repr

/-- `normalizeItem` from inventoryStore.js. -/
def normalizeItem (r : RawItem) : Item :=
  { name := (toSafeString r.name).getD ""
    setName := optNonempty (toSafeString r.setName)
    quantity := toIntJs r.quantity
    marketPrice := toMoney r.marketPrice
    yourPrice := toMoney r.yourPrice
    lastUpdated := optNonempty (toIsoOrNull r.lastUpdated)
    tcgPlayerId := optNonempty (toSafeString r.tcgPlayerId)
    tcgPlayerUrl := optNonempty (toSafeString r.tcgPlayerUrl)
    imageUrl := optNonempty (toSafeString r.imageUrl)
    game := optNonempty (normalizeGame r.game) }

/-- `isNonEmptyString` applied to a plain string field. -/
def isNonEmptyStr (s : String) : Bool := jsTrim s ≠ ""

/-- The keep-filter of `normalizeItems`: a usable name or tcgPlayerId. -/
def keepItem (it : Item) : Bool :=
  isNonEmptyStr it.name ||
    (match it.tcgPlayerId with
     | some s => isNonEmptyStr s
     | none => false)

/-- `normalizeItems` from inventoryStore.js. -/
def normalizeItems (l : List RawItem) : List Item :=
  (l.map normalizeItem).filter keepItem

def optToJVal : Option String → JVal
  | some s => .jstr s
  | none => .undefined

def optQToJVal : Option ℚ → JVal
  | some q => .jnum q
  | none => .undefined

/-- JSON round trip of a canonical item: serializing a normalized item and
parsing it back presents each present field to the normalizer again. -/
def itemToRaw (it : Item) : RawItem :=
  { name := .jstr it.name
    setName := optToJVal it.setName
    quantity := .jnum it.quantity
    marketPrice := optQToJVal it.marketPrice
    yourPrice := optQToJVal it.yourPrice
    lastUpdated := optToJVal it.lastUpdated
    tcgPlayerId := optToJVal it.tcgPlayerId
    tcgPlayerUrl := optToJVal it.tcgPlayerUrl
    imageUrl := optToJVal it.imageUrl
    game := optToJVal it.game
    extra := [] }

/-! ### Normalization is idempotent -/

theorem str_eq_empty_iff (s : String) : s = "" ↔ s.data = [] := by
  constructor
  · intro h; rw [h]
  · intro h
    cases s with
    | mk d =>
        show String.mk d = String.mk []
        rw [show d = [] from h]

theorem toSafeString_trimmed (v : JVal) (s : String) (h : toSafeString v = some s) :
    jsTrim s = s := by
  cases v with
  | jstr t =>
      have hs := Option.some.inj h
      rw [← hs]; exact jsTrim_idem t
  | jnum q =>
      have hs := Option.some.inj h
      rw [← hs]; exact jsTrim_numToStr q
  | jbool b =>
      have hs := Option.some.inj h
      rw [← hs]; cases b <;> decide
  | undefined => exact absurd h (by simp [toSafeString])
  | jnull => exact absurd h (by simp [toSafeString])
  | jobj => exact absurd h (by simp [toSafeString])

theorem round2_idem (q : ℚ) : round2 (round2 q) = round2 q := by
  unfold round2
  have h1 : ((⌊q * 100 + 1/2⌋ : ℤ) : ℚ) / 100 * 100 = ((⌊q * 100 + 1/2⌋ : ℤ) : ℚ) := by
    field_simp
  rw [h1, Int.floor_int_add]
  norm_num

theorem optNonempty_safe (o : Option String) (ho : ∀ s, o = some s → jsTrim s = s) :
    optNonempty (toSafeString (optToJVal (optNonempty o))) = optNonempty o := by
  cases o with
  | none => rfl
  | some s =>
      by_cases hs : s = ""
      · subst hs; rfl
      · have ht := ho s rfl
        simp [optNonempty, hs, optToJVal, toSafeString, ht]

theorem toMoney_emb (m : Option ℚ) (hm : ∀ q, m = some q → round2 q = q) :
    toMoney (optQToJVal m) = m := by
  cases m with
  | none => rfl
  | some q =>
      have := hm q rfl
      simp [toMoney, optQToJVal, jsNum, this]

theorem toMoney_round2 (v : JVal) (q : ℚ) (h : toMoney v = some q) : round2 q = q := by
  unfold toMoney at h
  split at h
  · simp at h
  · revert h
    cases jsNum v with
    | none => intro h; simp at h
    | some p =>
        intro h
        simp at h
        rw [← h]; exact round2_idem p

theorem jsDateCanon_head (s u : String) (h : jsDateCanon s = some u) :
    u.data.head? = some '@' := by
  unfold jsDateCanon at h
  split at h
  · rename_i heq
    have hs := Option.some.inj h
    rw [← hs, heq]; rfl
  · have hs := Option.some.inj h
    rw [← hs]; rfl
  · exact absurd h (by simp)

theorem toIso_stable (v : JVal) (u : String) (h : toIsoOrNull v = some u) :
    u ≠ "" ∧ toIsoOrNull (.jstr u) = some u := by
  have hhead : u.data.head? = some '@' := by
    cases v with
    | jstr s =>
        simp only [toIsoOrNull] at h
        by_cases ht : jsTrim s = ""
        · rw [if_pos ht] at h; exact absurd h (by simp)
        · rw [if_neg ht] at h
          exact jsDateCanon_head s u h
    | undefined => simp [toIsoOrNull] at h
    | jnull => simp [toIsoOrNull] at h
    | jnum q => simp [toIsoOrNull] at h
    | jbool b => simp [toIsoOrNull] at h
    | jobj => simp [toIsoOrNull] at h
  obtain ⟨rest, hdata⟩ : ∃ rest, u.data = '@' :: rest := by
    cases hd : u.data with
    | nil => rw [hd] at hhead; simp at hhead
    | cons c t =>
        rw [hd] at hhead; simp at hhead
        exact ⟨t, by rw [hhead]⟩
  have hne : u ≠ "" := by
    rw [Ne, str_eq_empty_iff, hdata]; simp
  have htrim : jsTrim u ≠ "" := by
    rw [Ne, str_eq_empty_iff]
    show trimChars u.data ≠ []
    exact trimChars_ne_nil u.data '@' (by rw [hdata]; simp) (by decide)
  refine ⟨hne, ?_⟩
  simp only [toIsoOrNull]
  rw [if_neg htrim]
  unfold jsDateCanon
  rw [hdata]
  rfl

theorem optNonempty_some (o : Option String) (u : String) (h : optNonempty o = some u) :
    o = some u := by
  cases o with
  | none => simp [optNonempty] at h
  | some t =>
      by_cases ht : t = ""
      · subst ht; simp [optNonempty] at h
      · simp only [optNonempty, if_neg ht] at h
        exact h

theorem game_stable (v : JVal) (g : String) (h : normalizeGame v = some g) :
    g ≠ "" ∧ normalizeGame (.jstr g) = some g := by
  cases v with
  | jstr s =>
      simp only [normalizeGame] at h
      by_cases ht : jsTrim s = ""
      · rw [if_pos ht] at h; exact absurd h (by simp)
      · rw [if_neg ht] at h
        by_cases h1 : lowerStr (jsTrim s) = "pokémon" ∨ lowerStr (jsTrim s) = "poke"
        · rw [if_pos h1] at h
          have hg := Option.some.inj h
          rw [← hg]
          exact ⟨by decide, by decide⟩
        · rw [if_neg h1] at h
          by_cases h2 : lowerStr (jsTrim s) = "magic: the gathering"
          · rw [if_pos h2] at h
            have hg := Option.some.inj h
            rw [← hg]
            exact ⟨by decide, by decide⟩
          · rw [if_neg h2] at h
            have hg := Option.some.inj h
            have hgt : jsTrim g = g := by
              rw [← hg, jsTrim_lowerStr, jsTrim_idem]
            have hgl : lowerStr g = g := by
              rw [← hg, lowerStr_idem]
            have hgne : g ≠ "" := by
              rw [Ne, str_eq_empty_iff, ← hg]
              show (jsTrim s).data.map lowerChar ≠ []
              simp
              rw [← str_eq_empty_iff]
              exact ht
            rw [hg] at h1 h2
            refine ⟨hgne, ?_⟩
            simp only [normalizeGame]
            rw [if_neg (by rw [hgt]; exact hgne), hgt, hgl, if_neg h1, if_neg h2]
  | undefined => simp [normalizeGame] at h
  | jnull => simp [normalizeGame] at h
  | jnum q => simp [normalizeGame] at h
  | jbool b => simp [normalizeGame] at h
  | jobj => simp [normalizeGame] at h

theorem optNonempty_stable (o : Option String) (f : JVal → Option String)
    (hf : ∀ u, o = some u → u ≠ "" ∧ f (.jstr u) = some u)
    (hnone : f .undefined = none) :
    optNonempty (f (optToJVal (optNonempty o))) = optNonempty o := by
  cases o with
  | none => simp [optNonempty, optToJVal, hnone]
  | some u =>
      by_cases hu : u = ""
      · subst hu; simp [optNonempty, optToJVal, hnone]
      · obtain ⟨hne, hfu⟩ := hf u rfl
        simp [optNonempty, hu, optToJVal, hfu]

theorem normalizeItem_idem (r : RawItem) :
    normalizeItem (itemToRaw (normalizeItem r)) = normalizeItem r := by
  ext1
  -- name
  · show (toSafeString (.jstr ((toSafeString r.name).getD ""))).getD "" =
      (toSafeString r.name).getD ""
    cases h : toSafeString r.name with
    | none => simp [toSafeString]; decide
    | some s =>
        simp [toSafeString]
        exact toSafeString_trimmed r.name s h
  -- setName
  · exact optNonempty_safe _ (fun s h => toSafeString_trimmed _ s h)
  -- quantity
  · show toIntJs (.jnum (toIntJs r.quantity)) = toIntJs r.quantity
    generalize toIntJs r.quantity = k
    have : jsTrunc ((k : ℕ) : ℚ) = (k : ℤ) := by
      unfold jsTrunc
      rw [if_pos (by positivity)]
      exact_mod_cast Int.floor_natCast k
    simp [toIntJs, jsNum, this]
  -- marketPrice
  · exact toMoney_emb _ (fun q h => toMoney_round2 r.marketPrice q h)
  -- yourPrice
  · exact toMoney_emb _ (fun q h => toMoney_round2 r.yourPrice q h)
  -- lastUpdated
  · exact optNonempty_stable _ toIsoOrNull
      (fun u h => toIso_stable r.lastUpdated u h) rfl
  -- tcgPlayerId
  · exact optNonempty_safe _ (fun s h => toSafeString_trimmed _ s h)
  -- tcgPlayerUrl
  · exact optNonempty_safe _ (fun s h => toSafeString_trimmed _ s h)
  -- imageUrl
  · exact optNonempty_safe _ (fun s h => toSafeString_trimmed _ s h)
  -- game
  · exact optNonempty_stable _ normalizeGame
      (fun u h => game_stable r.game u h) rfl

theorem normalizeItems_idem (l : List RawItem) :
    normalizeItems ((normalizeItems l).map itemToRaw) = normalizeItems l := by
  unfold normalizeItems
  rw [List.map_map]
  have hmap : ((l.map normalizeItem).filter keepItem).map (normalizeItem ∘ itemToRaw) =
      (l.map normalizeItem).filter keepItem := by
    have hcongr : ((l.map normalizeItem).filter keepItem).map (normalizeItem ∘ itemToRaw) =
        ((l.map normalizeItem).filter keepItem).map id := by
      refine List.map_congr_left ?_
      intro x hx
      obtain ⟨r, _, hr⟩ := List.mem_map.1 (List.mem_of_mem_filter hx)
      show normalizeItem (itemToRaw x) = x
      rw [← hr]
      exact normalizeItem_idem r
    rw [hcongr, List.map_id]
  rw [hmap, List.filter_eq_self.2 (fun x hx => List.of_mem_filter hx)]

/-! ## The store file: write and read (inventoryStore.js) -/

/-- The metadata part of a read result. -/
structure InvMeta where
  schemaVersion : ℚ
  updatedAt : Option String
deriving DecidableEq, Repr

/-- Result of `readInventoryFile`. -/
structure ReadResult where
  meta : InvMeta
  items : List Item
deriving DecidableEq, Repr

/-- The envelope `writeInventoryFile` serializes. -/
structure Payload where
  schemaVersion : ℕ
  updatedAt : String
  totalItems : ℕ
  items : List Item
deriving DecidableEq, Repr

/-- Parsed JSON shapes `readInventoryFile` distinguishes: a bare array,
an envelope with an `items` array, or anything else (incl. parse errors,
treated as empty). -/
inductive FileJson where
  | arr (items : List RawItem)
  | env (schemaVersion : JVal) (updatedAt : JVal) (items : List RawItem)
  | malformed
deriving DecidableEq

def jvalStr? : JVal → Option String
  | .jstr s => some s
  | _ => none

/-- `writeInventoryFile` (the payload it builds and serializes). -/
def writeInventoryFileModel (nowIso : String) (items : List RawItem) : Payload :=
  { schemaVersion := 1
    updatedAt := nowIso
    totalItems := (normalizeItems items).length
    items := normalizeItems items }

/-- `readInventoryFile` on a parsed store file. -/
def readInventoryFileModel : FileJson → ReadResult
  | .arr its => ⟨⟨0, none⟩, normalizeItems its⟩
  | .env sv ua its =>
      ⟨⟨(jsNum sv).getD 0, if isNonEmptyString ua then jvalStr? ua else none⟩,
        normalizeItems its⟩
  | .malformed => ⟨⟨0, none⟩, []⟩

/-- JSON round trip of the serialized payload: `JSON.parse(JSON.stringify p)`
yields the envelope shape with each item presented as a raw record. -/
def payloadToFile (p : Payload) : FileJson :=
  .env (.jnum p.schemaVersion) (.jstr p.updatedAt) (p.items.map itemToRaw)

/-- C2: normalizing the items read back from a just-written store file gives
the same result as normalizing the original list:
`normalizeCollection(read(write(path, items)).items) = normalizeCollection(items)`. -/
theorem c2_write_read_roundtrip (nowIso : String) (items : List RawItem) :
    normalizeItems
      (((readInventoryFileModel
          (payloadToFile (writeInventoryFileModel nowIso items))).items).map itemToRaw) =
      normalizeItems items := by
  simp only [writeInventoryFileModel, payloadToFile, readInventoryFileModel]
  rw [normalizeItems_idem, normalizeItems_idem]

/-! ## Filesystem operation machine (atomic writes, C1 / C10)

Paths are component lists; the filesystem is a map from paths to file
contents.  Each `fs.*Sync` call of the source becomes one primitive
operation; `writeFileSync` of the temp file is modelled as a sequence of
content states (`chunks` then the full data) so that a reader can be
placed between any two primitive steps, including mid-write. -/

abbrev FsPath := List String

abbrev FsMap := FsPath → Option String

inductive FsOp where
  | write (p : FsPath) (data : String)
  | copy (src dst : FsPath)
  | rename (src dst : FsPath)
  | unlink (p : FsPath)
  | mkdir (p : FsPath)
deriving DecidableEq

def applyOp (fs : FsMap) : FsOp → FsMap
  | .write p data => fun q => if q = p then some data else fs q
  | .copy src dst => fun q => if q = dst then fs src else fs q
  | .rename src dst => fun q => if q = dst then fs src else if q = src then none else fs q
  | .unlink p => fun q => if q = p then none else fs q
  | .mkdir _ => fs

def applyOps (fs : FsMap) (ops : List FsOp) : FsMap := ops.foldl applyOp fs

/-- `path.join(dir, base)`: the store file. -/
def storePath (dir : List String) (base : String) : FsPath := dir ++ [base]

/-- The temp file of `atomicWriteFileSync`: same directory, name
`base + ".tmp-" + pid + "-" + Date.now()` (the suffix is `nonce`). -/
def tmpPath (dir : List String) (base nonce : String) : FsPath :=
  dir ++ [base ++ ".tmp-" ++ nonce]

/-- The sibling `backups/` directory of `makeBackupIfExists`. -/
def backupsDirPath (dir : List String) : FsPath := dir ++ ["backups"]

/-- A file inside the sibling `backups/` directory. -/
def backupFilePath (dir : List String) (f : String) : FsPath := dir ++ ["backups", f]

/-- The operations of `makeBackupIfExists` + `pruneBackups`: when the store
file exists, ensure the backups dir, copy the current file to a
timestamped backup, and unlink the pruned old backups. -/
def makeBackupOps (dir : List String) (base stamp : String) (exFlag : Bool)
    (pruned : List String) : List FsOp :=
  if exFlag then
    [.mkdir (backupsDirPath dir),
     .copy (storePath dir base) (backupFilePath dir ("inventory-" ++ stamp ++ ".json"))] ++
      pruned.map (fun f => .unlink (backupFilePath dir f))
  else []

/-- The operations of `atomicWriteFileSync`: serialize to the temp file in
the same directory (possibly in several steps), then rename onto the
target. -/
def atomicWriteOps (dir : List String) (base nonce : String) (chunks : List String)
    (data : String) : List FsOp :=
  (chunks ++ [data]).map (fun c => .write (tmpPath dir base nonce) c) ++
    [.rename (tmpPath dir base nonce) (storePath dir base)]

/-- The full operation trace of `writeInventoryFile`. -/
def writeTraceOps (dir : List String) (base nonce stamp : String) (exFlag : Bool)
    (pruned : List String) (chunks : List String) (data : String) : List FsOp :=
  makeBackupOps dir base stamp exFlag pruned ++ atomicWriteOps dir base nonce chunks data

/-- An operation that leaves the content at `p` untouched on any filesystem. -/
def opPreserves (op : FsOp) (p : FsPath) : Prop := ∀ fs : FsMap, applyOp fs op p = fs p

theorem applyOps_preserves (ops : List FsOp) (p : FsPath)
    (h : ∀ op ∈ ops, opPreserves op p) : ∀ fs : FsMap, applyOps fs ops p = fs p := by
  induction ops with
  | nil => intro fs; rfl
  | cons op rest ih =>
      intro fs
      show applyOps (applyOp fs op) rest p = fs p
      rw [ih (fun o ho => h o (List.mem_cons_of_mem op ho)), h op (List.mem_cons_self op rest)]

theorem append_singleton_ne (dir : List String) (x y : String) (h : x ≠ y) :
    dir ++ [x] ≠ dir ++ [y] := by
  intro hc
  simp at hc
  exact h hc

theorem append_pair_ne_singleton (dir : List String) (x y z : String) :
    dir ++ [x, y] ≠ dir ++ [z] := by
  intro hc
  simp at hc

theorem str_append_ne (base suf : String) (h : suf.data ≠ []) : base ++ suf ≠ base := by
  intro hc
  have hlen := congrArg String.length hc
  rw [String.length_append] at hlen
  have : suf.length = 0 := by omega
  have : suf.data.length = 0 := this
  exact h (List.length_eq_zero.1 this)

theorem tmpPath_ne_storePath (dir : List String) (base nonce : String) :
    tmpPath dir base nonce ≠ storePath dir base := by
  unfold tmpPath storePath
  refine append_singleton_ne dir _ _ ?_
  rw [String.append_assoc]
  refine str_append_ne base (".tmp-" ++ nonce) ?_
  intro hc
  have := congrArg List.length hc
  rw [String.data_append] at this
  simp at this

theorem backupFilePath_ne_storePath (dir : List String) (f base : String) :
    backupFilePath dir f ≠ storePath dir base := by
  unfold backupFilePath storePath
  exact append_pair_ne_singleton dir "backups" f base

theorem writeTrace_front_preserves (dir : List String) (base nonce stamp : String)
    (exFlag : Bool) (pruned : List String) (chunks : List String) (data : String) :
    ∀ op ∈ makeBackupOps dir base stamp exFlag pruned ++
        ((chunks ++ [data]).map (fun c => FsOp.write (tmpPath dir base nonce) c)),
      opPreserves op (storePath dir base) := by
  intro op hop
  rcases List.mem_append.1 hop with hmb | hwr
  · unfold makeBackupOps at hmb
    cases exFlag with
    | false => simp at hmb
    | true =>
        simp only [if_pos] at hmb
        rcases List.mem_append.1 hmb with hfixed | hunlink
        · rcases List.mem_cons.1 hfixed with rfl | hfixed2
          · intro fs; rfl
          · rcases List.mem_cons.1 hfixed2 with rfl | habs
            · intro fs
              show (if storePath dir base = backupFilePath dir _ then _ else fs _) = fs _
              rw [if_neg (fun hc => backupFilePath_ne_storePath dir _ base hc.symm)]
            · simp at habs
        · obtain ⟨f, _, rfl⟩ := List.mem_map.1 hunlink
          intro fs
          show (if storePath dir base = backupFilePath dir f then none else fs _) = fs _
          rw [if_neg (fun hc => backupFilePath_ne_storePath dir f base hc.symm)]
  · obtain ⟨c, _, rfl⟩ := List.mem_map.1 hwr
    intro fs
    show (if storePath dir base = tmpPath dir base nonce then some c else fs _) = fs _
    rw [if_neg (fun hc => tmpPath_ne_storePath dir base nonce hc.symm)]

theorem applyOps_writes_last (p : FsPath) (chunks : List String) (data : String) :
    ∀ fs : FsMap, applyOps fs ((chunks ++ [data]).map (fun c => FsOp.write p c)) p =
      some data := by
  induction chunks with
  | nil => intro fs; simp [applyOps, applyOp]
  | cons c rest ih =>
      intro fs
      show applyOps (applyOp fs (.write p c)) ((rest ++ [data]).map _) p = some data
      exact ih _

/-- C1: during `writeInventoryFile`, every intermediate filesystem state
(after any proper prefix of the operation trace) shows the store path with
its previous content; only the final atomic rename changes it, and then to
the complete new serialization.  The temp file lives in the same directory
(`tmpPath`) and is distinct from the store path. -/
theorem c1_atomic_write (fs : FsMap) (dir : List String)
    (base nonce stamp : String) (exFlag : Bool) (pruned chunks : List String)
    (data : String) :
    (∀ k, k < (writeTraceOps dir base nonce stamp exFlag pruned chunks data).length →
      applyOps fs ((writeTraceOps dir base nonce stamp exFlag pruned chunks data).take k)
        (storePath dir base) = fs (storePath dir base)) ∧
    applyOps fs (writeTraceOps dir base nonce stamp exFlag pruned chunks data)
      (storePath dir base) = some data := by
  have hsplit : writeTraceOps dir base nonce stamp exFlag pruned chunks data =
      (makeBackupOps dir base stamp exFlag pruned ++
        ((chunks ++ [data]).map (fun c => FsOp.write (tmpPath dir base nonce) c))) ++
      [.rename (tmpPath dir base nonce) (storePath dir base)] := by
    unfold writeTraceOps atomicWriteOps
    rw [List.append_assoc]
  constructor
  · intro k hk
    rw [hsplit] at hk ⊢
    set front := makeBackupOps dir base stamp exFlag pruned ++
      ((chunks ++ [data]).map (fun c => FsOp.write (tmpPath dir base nonce) c)) with hfront
    have hklen : k ≤ front.length := by
      rw [List.length_append, List.length_singleton] at hk
      omega
    rw [List.take_append_of_le_length hklen]
    refine applyOps_preserves _ _ ?_ fs
    intro op hop
    exact writeTrace_front_preserves dir base nonce stamp exFlag pruned chunks data op
      (List.take_subset k front hop)
  · rw [hsplit, applyOps, List.foldl_append]
    show applyOp (applyOps fs _) (.rename _ _) _ = some data
    simp only [applyOp]
    rw [if_pos trivial]
    rw [applyOps, List.foldl_append]
    show applyOps (applyOps fs (makeBackupOps dir base stamp exFlag pruned)) _ _ = some data
    exact applyOps_writes_last _ chunks data _

def c1fs : FsMap := fun p => if p = storePath ["root"] "inventory.json" then some "OLD" else none

theorem c1_atomic_write_witness :
    (1 < (writeTraceOps ["root"] "inventory.json" "42-1" "20250101-120000" true
        ["inventory-a.json"] ["par"] "NEW").length ∧
      applyOps c1fs ((writeTraceOps ["root"] "inventory.json" "42-1" "20250101-120000" true
          ["inventory-a.json"] ["par"] "NEW").take 1) (storePath ["root"] "inventory.json") =
        c1fs (storePath ["root"] "inventory.json")) ∧
    applyOps c1fs (writeTraceOps ["root"] "inventory.json" "42-1" "20250101-120000" true
        ["inventory-a.json"] ["par"] "NEW") (storePath ["root"] "inventory.json") =
      some "NEW" :=
  ⟨⟨by decide,
    (c1_atomic_write c1fs ["root"] "inventory.json" "42-1" "20250101-120000" true
      ["inventory-a.json"] ["par"] "NEW").1 1 (by decide)⟩,
   (c1_atomic_write c1fs ["root"] "inventory.json" "42-1" "20250101-120000" true
      ["inventory-a.json"] ["par"] "NEW").2⟩

/-! ## C6: identity uniqueness of the persisted collection -/

/-- The spec's claimed invariant (claim side, for refutation): within a
collection, no two records share an externalId, and records keyed by name
(no externalId) never collide after trimming and case-folding. -/
def identityUnique (l : List Item) : Prop :=
  l.Pairwise (fun a b =>
    (a.tcgPlayerId.isSome → b.tcgPlayerId.isSome → a.tcgPlayerId ≠ b.tcgPlayerId) ∧
    (a.tcgPlayerId = none → b.tcgPlayerId = none →
      lowerStr (jsTrim a.name) ≠ lowerStr (jsTrim b.name)))

instance (l : List Item) : Decidable (identityUnique l) := by
  unfold identityUnique; infer_instance

/-- C6 counterexample: the store persists two records with the same
externalId "7" untouched — `normalizeItems` maps and filters but never
deduplicates, so the claimed uniqueness invariant fails. -/
theorem c6_counterexample :
    ¬ identityUnique
      ((writeInventoryFileModel "@now"
        [{ name := .jstr "Box A", tcgPlayerId := .jstr "7" },
         { name := .jstr "Box B", tcgPlayerId := .jstr "7" }]).items) := by
  decide

/-- C6 (amended): every record the store persists is fully normalized — a
fixpoint of `normalizeItem` — and carries a usable identity (nonempty
trimmed name or externalId); but identity uniqueness is NOT enforced:
duplicate externalIds (or case-folded names) are persisted as given. -/
theorem c6_amended_persisted_normalized (nowIso : String) (items : List RawItem) :
    ∀ it ∈ (writeInventoryFileModel nowIso items).items,
      normalizeItem (itemToRaw it) = it ∧ keepItem it = true := by
  intro it hit
  simp only [writeInventoryFileModel] at hit
  unfold normalizeItems at hit
  constructor
  · obtain ⟨r, _, hr⟩ := List.mem_map.1 (List.mem_of_mem_filter hit)
    rw [← hr]
    exact normalizeItem_idem r
  · exact List.of_mem_filter hit

def c6wItem : Item := normalizeItem { name := .jstr "Solo Box" }

theorem c6_amended_witness :
    c6wItem ∈ (writeInventoryFileModel "@x" [{ name := .jstr "Solo Box" }]).items ∧
      (normalizeItem (itemToRaw c6wItem) = c6wItem ∧ keepItem c6wItem = true) :=
  ⟨by decide,
   c6_amended_persisted_normalized "@x" [{ name := .jstr "Solo Box" }] c6wItem (by decide)⟩

/-! ## Watchlist portfolios (discordBot.js): normalization and save (C10) -/

/-- JS `String(v)` (used before `.trim()` on watchlist ids/labels). -/
def jsToString : JVal → String
  | .jstr s => s
  | .jnum q => numToStr q
  | .jbool b => boolStr b
  | .jnull => "null"
  | .undefined => "undefined"
  | .jobj => "[object Object]"

/-- JS `a ?? b`. -/
def jvCoalesce (a b : JVal) : JVal :=
  if a = .jnull ∨ a = .undefined then b else a

/-- `toIsoIfValid` from discordBot.js over the date model: falsy input is
undefined, strings go through date canonicalization, numeric timestamps
render canonically, anything else is an invalid date. -/
def toIsoIfValid (v : JVal) : Option String :=
  if v = .jnull ∨ v = .undefined ∨ v = .jstr "" ∨ v = .jnum 0 ∨ v = .jbool false then none
  else match v with
    | .jstr s => jsDateCanon s
    | .jnum q => some ⟨'@' :: (numToStr q).data⟩
    | _ => none

/-- `numOrUndef` from discordBot.js. -/
def numOrUndef (v : JVal) : Option ℚ := jsNum v

/-- A raw watchlist entry as stored on disk / passed in. -/
structure RawPItem where
  tcgplayerId : JVal := .undefined
  id : JVal := .undefined
  label : JVal := .undefined
  addedAt : JVal := .undefined
  addedMarketPrice : JVal := .undefined
  lastCheckedAt : JVal := .undefined
  lastMarketPrice : JVal := .undefined
  lastAlertedAt : JVal := .undefined
deriving DecidableEq, Repr

/-- A normalized watchlist entry. -/
structure PItem where
  tcgplayerId : String
  label : String
  addedAt : Option String
  addedMarketPrice : Option ℚ
  lastCheckedAt : Option String
  lastMarketPrice : Option ℚ
  lastAlertedAt : Option String
deriving DecidableEq, Repr

/-- The id key `String(raw?.tcgplayerId ?? raw?.id ?? "").trim()`. -/
def rawPItemId (raw : RawPItem) : String :=
  jsTrim (jsToString (jvCoalesce raw.tcgplayerId (jvCoalesce raw.id (.jstr ""))))

/-- The per-entry normalization inside `normalizePortfolios`. -/
def normalizePItem (raw : RawPItem) : PItem :=
  { tcgplayerId := rawPItemId raw
    label := if raw.label = .jnull ∨ raw.label = .undefined then "" else jsTrim (jsToString raw.label)
    addedAt := toIsoIfValid raw.addedAt
    addedMarketPrice := numOrUndef raw.addedMarketPrice
    lastCheckedAt := toIsoIfValid raw.lastCheckedAt
    lastMarketPrice := numOrUndef raw.lastMarketPrice
    lastAlertedAt := toIsoIfValid raw.lastAlertedAt }

/-- JS `a || b` on an optional string. -/
def optOr (a b : Option String) : Option String :=
  match a with
  | some s => if s = "" then b else some s
  | none => b

/-- JS `a ?? b` on an optional number. -/
def optCoalesceQ (a b : Option ℚ) : Option ℚ :=
  match a with
  | some q => some q
  | none => b

/-- The duplicate-id merge of `normalizePortfolios`. -/
def mergePItem (existing normalized : PItem) : PItem :=
  { existing with
    label := if normalized.label = "" then existing.label else normalized.label
    addedAt := optOr existing.addedAt normalized.addedAt
    addedMarketPrice := optCoalesceQ existing.addedMarketPrice normalized.addedMarketPrice
    lastCheckedAt := optOr normalized.lastCheckedAt existing.lastCheckedAt
    lastMarketPrice := optCoalesceQ normalized.lastMarketPrice existing.lastMarketPrice
    lastAlertedAt := optOr normalized.lastAlertedAt existing.lastAlertedAt }

/-- JS `Map` lookup over an insertion-ordered association list. -/
def lookupP : List (String × PItem) → String → Option PItem
  | [], _ => none
  | (k', v) :: rest, k => if k' = k then some v else lookupP rest k

/-- JS `Map.set`: update in place, else append (insertion order kept). -/
def upsertP (m : List (String × PItem)) (k : String) (v : PItem) : List (String × PItem) :=
  match m with
  | [] => [(k, v)]
  | (k', v') :: rest => if k' = k then (k', v) :: rest else (k', v') :: upsertP rest k v

/-- One user's item list in `normalizePortfolios`: fold into the id-keyed
map, merging duplicates, then take the values in insertion order. -/
def normalizeUserItems (items : List RawPItem) : List PItem :=
  (items.foldl (fun m raw =>
    let id := rawPItemId raw
    if id = "" then m
    else
      let normalized := normalizePItem raw
      match lookupP m id with
      | none => upsertP m id normalized
      | some existing => upsertP m id (mergePItem existing normalized)) []).map (·.2)

/-- The portfolios object, as its entry list. -/
abbrev Portfolios := List (String × List RawPItem)

/-- `normalizePortfolios` from discordBot.js. -/
def normalizePortfolios (p : Portfolios) : List (String × List PItem) :=
  p.map (fun e => (e.1, normalizeUserItems e.2))

/-- Model of `JSON.stringify` on the normalized portfolios: a deterministic
rendering of the structure. -/
def portfoliosJson (x : List (String × List PItem)) : String := reprStr x

/-- The operation trace of `savePortfolios`: ensure the directory, write
the serialized normalized portfolios to `PORTFOLIO_PATH + ".tmp"`, rename
onto the portfolio path. -/
def savePortfolioOps (dir : List String) (name : String) (p : Portfolios) : List FsOp :=
  [.mkdir dir,
   .write (dir ++ [name ++ ".tmp"]) (portfoliosJson (normalizePortfolios p)),
   .rename (dir ++ [name ++ ".tmp"]) (dir ++ [name])]

/-- `savePortfolios` under the catch-all: if an operation throws, execution
stops there (the exception is swallowed and logged); `stop` is the number
of operations that completed. -/
def savePortfoliosRun (fs : FsMap) (dir : List String) (name : String)
    (p : Portfolios) (stop : ℕ) : FsMap :=
  applyOps fs ((savePortfolioOps dir name p).take stop)

/-- C10: `savePortfolios` is total for every failure point (the catch-all
swallows write errors, so nothing propagates to the caller); if the run
stops before the final rename the previously committed portfolios file is
byte-for-byte intact, and a completed run leaves the file holding exactly
the serialized normalized portfolios. -/
theorem c10_savePortfolios_safe (fs : FsMap) (dir : List String) (name : String)
    (p : Portfolios) (stop : ℕ) :
    (stop < 3 → savePortfoliosRun fs dir name p stop (dir ++ [name]) = fs (dir ++ [name])) ∧
    (3 ≤ stop → savePortfoliosRun fs dir name p stop (dir ++ [name]) =
      some (portfoliosJson (normalizePortfolios p))) := by
  have hne : dir ++ [name ++ ".tmp"] ≠ dir ++ [name] := by
    refine append_singleton_ne dir _ _ ?_
    refine str_append_ne name ".tmp" ?_
    intro hc
    have := congrArg List.length hc
    simp at this
  constructor
  · intro hlt
    unfold savePortfoliosRun savePortfolioOps
    match stop, hlt with
    | 0, _ => rfl
    | 1, _ => rfl
    | 2, _ =>
        show applyOp (applyOp fs _) (.write _ _) (dir ++ [name]) = fs (dir ++ [name])
        simp only [applyOp]
        rw [if_neg (fun hc => hne hc.symm)]
  · intro hge
    unfold savePortfoliosRun savePortfolioOps
    rw [List.take_of_length_le (by simpa using hge)]
    show applyOp (applyOp (applyOp fs _) (.write _ _)) (.rename _ _) (dir ++ [name]) =
      some _
    simp [applyOp]

theorem c10_savePortfolios_witness :
    (2 < 3 ∧ savePortfoliosRun c1fs ["bot"] "userPortfolios.json" [("u1", [])] 2
        (["bot"] ++ ["userPortfolios.json"]) = c1fs (["bot"] ++ ["userPortfolios.json"])) ∧
    (3 ≤ 3 ∧ savePortfoliosRun c1fs ["bot"] "userPortfolios.json" [("u1", [])] 3
        (["bot"] ++ ["userPortfolios.json"]) =
      some (portfoliosJson (normalizePortfolios [("u1", [])]))) :=
  ⟨⟨by decide,
    (c10_savePortfolios_safe c1fs ["bot"] "userPortfolios.json" [("u1", [])] 2).1 (by decide)⟩,
   ⟨by decide,
    (c10_savePortfolios_safe c1fs ["bot"] "userPortfolios.json" [("u1", [])] 3).2 (by decide)⟩⟩

/-! ## Sliding-window rate limiter (updatePrices.js, C3)

`rateLimitedBatchFetch` keeps a module-level array of grant timestamps.
On each call it (1) drops timestamps older than 60 s, (2) if at capacity
(`MAX_BATCH_CALLS_PER_MIN = 10`) sleeps until the oldest kept timestamp is
60 s old, then (3) pushes `Date.now()` and issues the request.  `slack ≥ 0`
models both `setTimeout` waking late and `Date.now()` advancing between
the check and the push (it also covers the `+50` ms safety buffer of the
`rateLimitedFetchSealedPrice` variant).  Calls are serialized: the next
call starts no earlier than the previous grant (`await` in a loop). -/

/-- `Math.min(...ts)` for a nonempty list (0 is unreachable filler). -/
def jsMinList : List ℤ → ℤ
  | [] => 0
  | a :: r => r.foldl min a

/-- One call to the limiter: returns the grant timestamp that is pushed
and the new timestamp array. -/
def acquire (ts : List ℤ) (now slack : ℤ) : ℤ × List ℤ :=
  let kept := ts.filter (fun t => decide (now - t < 60000))
  if 10 ≤ kept.length then
    let g := jsMinList kept + 60000 + slack
    (g, kept ++ [g])
  else
    (now + slack, kept ++ [now + slack])

/-- The grant timestamps of a sequence of calls, each given by its start
time `now` and its scheduling slack. -/
def runAcquires : List ℤ → List (ℤ × ℤ) → List ℤ
  | _, [] => []
  | ts, (n, s) :: rest =>
      (acquire ts n s).1 :: runAcquires (acquire ts n s).2 rest

/-- Serialized call pattern: each call starts no earlier than the previous
grant (the callers `await` each fetch before the next), with nonnegative
slack. -/
def serializedB : List ℤ → ℤ → List (ℤ × ℤ) → Bool
  | _, _, [] => true
  | ts, b, (n, s) :: rest =>
      decide (b ≤ n) && decide (0 ≤ s) &&
        serializedB (acquire ts n s).2 (acquire ts n s).1 rest

/-- Gap property: any two entries at least 10 positions apart are at least
one window (60000 ms) apart. -/
def GapList (L : List ℤ) : Prop :=
  ∀ t u (mid : List ℤ), List.Sublist (t :: (mid ++ [u])) L → 9 ≤ mid.length →
    t + 60000 ≤ u

theorem gapList_nil : GapList [] := by
  intro t u mid hsub _
  have := hsub.length_le
  simp at this

theorem gapList_sublist {K L : List ℤ} (hKL : List.Sublist K L) (hL : GapList L) :
    GapList K :=
  fun t u mid hsub hm => hL t u mid (hsub.trans hKL) hm

theorem eleven_split (K : List ℤ) (h : K.length = 11) :
    ∃ t mid u, K = t :: (mid ++ [u]) ∧ mid.length = 9 := by
  cases K with
  | nil => simp at h
  | cons t rest =>
      have hrest : rest.length = 10 := by simpa using h
      have hne : rest ≠ [] := by
        intro hc; rw [hc] at hrest; simp at hrest
      refine ⟨t, rest.dropLast, rest.getLast hne, ?_, ?_⟩
      · rw [List.dropLast_append_getLast hne]
      · rw [List.length_dropLast, hrest]

/-- If every element of a sublist `K` of a gap-list satisfies a predicate
that forbids two elements a whole window apart, `K` has at most 10
elements. -/
theorem gapList_bound (L K : List ℤ) (hK : List.Sublist K L) (hgap : GapList L)
    (P : ℤ → Prop) (hmem : ∀ x ∈ K, P x)
    (hcontra : ∀ a b, P a → P b → a + 60000 ≤ b → False) : K.length ≤ 10 := by
  by_contra hlong
  push_neg at hlong
  have h11 : (K.take 11).length = 11 := by
    rw [List.length_take]
    omega
  obtain ⟨t, mid, u, heq, hmid⟩ := eleven_split (K.take 11) h11
  have hsub : List.Sublist (t :: (mid ++ [u])) L := by
    rw [← heq]
    exact (List.take_sublist 11 K).trans hK
  have hgaptu : t + 60000 ≤ u := hgap t u mid hsub (by omega)
  have htK : t ∈ K := List.take_subset 11 K (by rw [heq]; simp)
  have huK : u ∈ K := List.take_subset 11 K (by rw [heq]; simp)
  exact hcontra t u (hmem t htK) (hmem u huK) hgaptu

/-- A sorted timestamp list splits as (aged-out prefix) ++ (in-window
suffix) under the 60 s filter. -/
theorem filter_window_split (ts : List ℤ) (hs : ts.Sorted (· ≤ ·)) (n : ℤ) :
    ts = ts.filter (fun t => !(decide (n - t < 60000))) ++
      ts.filter (fun t => decide (n - t < 60000)) := by
  induction ts with
  | nil => rfl
  | cons a rest ih =>
      rw [List.sorted_cons] at hs
      by_cases h : n - a < 60000
      · have hall : ∀ x ∈ a :: rest, (fun t => decide (n - t < 60000)) x = true := by
          intro x hx
          rcases List.mem_cons.1 hx with rfl | hxr
          · simpa using h
          · have := hs.1 x hxr
            simp only [decide_eq_true_eq]
            omega
        rw [List.filter_eq_self.2 hall]
        have hnil : (a :: rest).filter (fun t => !(decide (n - t < 60000))) = [] := by
          rw [List.filter_eq_nil_iff]
          intro x hx
          have := hall x hx
          simp at this ⊢
          omega
        rw [hnil, List.nil_append]
      · have hfa : ¬ (decide (n - a < 60000) = true) := by simpa using h
        have hna : ((!(decide (n - a < 60000))) = true) := by simpa using h
        simp only [List.filter_cons]
        rw [if_neg hfa, if_pos hna, List.cons_append]
        exact congrArg (a :: ·) (ih hs.2)

theorem foldl_min_eq_self (a : ℤ) (r : List ℤ) (h : ∀ x ∈ r, a ≤ x) :
    r.foldl min a = a := by
  induction r generalizing a with
  | nil => rfl
  | cons b t ih =>
      show t.foldl min (min a b) = a
      rw [min_eq_left (h b (by simp))]
      exact ih a (fun x hx => h x (by simp [hx]))

theorem jsMinList_cons_sorted (a : ℤ) (r : List ℤ) (hs : (a :: r).Sorted (· ≤ ·)) :
    jsMinList (a :: r) = a := by
  rw [List.sorted_cons] at hs
  exact foldl_min_eq_self a r hs.1

/-- The state invariant of the limiter: timestamps sorted, bounded by the
last grant, and satisfying the gap property. -/
def LimInv (ts : List ℤ) (b : ℤ) : Prop :=
  ts.Sorted (· ≤ ·) ∧ (∀ t ∈ ts, t ≤ b) ∧ GapList ts

theorem kept_length_le (ts : List ℤ) (b n : ℤ) (hb : b ≤ n) (h : LimInv ts b) :
    (ts.filter (fun t => decide (n - t < 60000))).length ≤ 10 := by
  obtain ⟨hsort, hbound, hgap⟩ := h
  refine gapList_bound ts _ (List.filter_sublist _) hgap
    (fun x => n - x < 60000 ∧ x ≤ n) ?_ ?_
  · intro x hx
    refine ⟨by simpa using List.of_mem_filter hx, ?_⟩
    have := hbound x (List.mem_of_mem_filter hx)
    omega
  · intro a c ha hc hac
    omega

theorem sublist_singleton_cases (y : List ℤ) (g : ℤ) (h : List.Sublist y [g]) :
    y = [] ∨ y = [g] := by
  cases h with
  | cons _ h2 => left; exact List.sublist_nil.1 h2
  | cons₂ _ h2 => right; rw [List.sublist_nil.1 h2]

theorem sorted_snoc (kept : List ℤ) (g : ℤ) (hks : kept.Sorted (· ≤ ·))
    (hle : ∀ t ∈ kept, t ≤ g) : (kept ++ [g]).Sorted (· ≤ ·) := by
  show List.Pairwise (· ≤ ·) (kept ++ [g])
  rw [List.pairwise_append]
  exact ⟨hks, List.sorted_singleton _,
    fun x hx y hy => by rw [List.mem_singleton] at hy; rw [hy]; exact hle x hx⟩

theorem acquire_inv (ts : List ℤ) (b n s : ℤ) (hb : b ≤ n) (hs : 0 ≤ s)
    (h : LimInv ts b) :
    LimInv (acquire ts n s).2 (acquire ts n s).1 ∧ n ≤ (acquire ts n s).1 := by
  obtain ⟨hsort, hbound, hgap⟩ := h
  obtain ⟨kept, hkept⟩ : ∃ kept, ts.filter (fun t => decide (n - t < 60000)) = kept :=
    ⟨_, rfl⟩
  have hksub : List.Sublist kept ts := hkept ▸ List.filter_sublist ts
  have hksort : kept.Sorted (· ≤ ·) := hsort.sublist hksub
  have hkgap : GapList kept := gapList_sublist hksub hgap
  have hkb : ∀ t ∈ kept, t ≤ n := by
    intro t ht
    have := hbound t (hksub.subset ht)
    omega
  have hkwin : ∀ t ∈ kept, n - t < 60000 := by
    intro t ht
    rw [← hkept] at ht
    simpa using List.of_mem_filter ht
  have hklen : kept.length ≤ 10 := by
    rw [← hkept]
    exact kept_length_le ts b n hb ⟨hsort, hbound, hgap⟩
  unfold acquire
  rw [hkept]
  by_cases hcap : 10 ≤ kept.length
  · rw [if_pos hcap]
    simp only
    have hklen10 : kept.length = 10 := le_antisymm hklen hcap
    obtain ⟨a, r, rfl⟩ : ∃ a r, kept = a :: r := by
      cases kept with
      | nil => simp at hklen10
      | cons a r => exact ⟨a, r, rfl⟩
    have hmin : jsMinList (a :: r) = a := jsMinList_cons_sorted a r hksort
    have hna : n - a < 60000 := hkwin a (by simp)
    have hng : n ≤ jsMinList (a :: r) + 60000 + s := by rw [hmin]; omega
    have hbig : ∀ t ∈ a :: r, t ≤ jsMinList (a :: r) + 60000 + s :=
      fun t ht => le_trans (hkb t ht) hng
    refine ⟨⟨sorted_snoc _ _ hksort hbig, ?_, ?_⟩, hng⟩
    · intro t ht
      rcases List.mem_append.1 ht with htk | htg
      · exact hbig t htk
      · rw [List.mem_singleton] at htg; omega
    · -- gap property of kept ++ [g]
      intro t u mid hsub hmid
      rcases List.sublist_append_iff.1 hsub with ⟨x, y, hxy, hxk, hyg⟩
      rcases sublist_singleton_cases y _ hyg with rfl | rfl
      · rw [List.append_nil] at hxy
        exact hkgap t u mid (by rw [hxy]; exact hxk) hmid
      · have hxy' : (t :: mid) ++ [u] = x ++ [jsMinList (a :: r) + 60000 + s] := by
          rw [← hxy]; rfl
        have hlen : (t :: mid).length = x.length := by
          have := congrArg List.length hxy'
          simp at this ⊢
          omega
        obtain ⟨hx1, hu⟩ := List.append_inj hxy' hlen
        have hug : u = jsMinList (a :: r) + 60000 + s := by
          have := hu
          rw [List.cons.injEq] at this
          exact this.1
        rw [← hx1] at hxk
        have hrlen : r.length = 9 := by
          have := hklen10
          simp at this
          omega
        have hlen1 : mid.length + 1 ≤ r.length + 1 := by
          have := hxk.length_le
          simp at this
          omega
        have hmid9 : mid.length = 9 := by omega
        have hxeq : t :: mid = a :: r := hxk.eq_of_length (by simp [hmid9, hrlen])
        have hta : t = a := by
          have := hxeq
          rw [List.cons.injEq] at this
          exact this.1
        rw [hug, hmin, hta]
        omega
  · rw [if_neg hcap]
    simp only
    push_neg at hcap
    have hng : n ≤ n + s := by omega
    refine ⟨⟨sorted_snoc _ _ hksort (fun t ht => by have := hkb t ht; omega), ?_, ?_⟩, hng⟩
    · intro t ht
      rcases List.mem_append.1 ht with htk | htg
      · have := hkb t htk; omega
      · rw [List.mem_singleton] at htg; omega
    · intro t u mid hsub hmid
      rcases List.sublist_append_iff.1 hsub with ⟨x, y, hxy, hxk, hyg⟩
      rcases sublist_singleton_cases y _ hyg with rfl | rfl
      · rw [List.append_nil] at hxy
        exact hkgap t u mid (by rw [hxy]; exact hxk) hmid
      · exfalso
        have h1 := hxk.length_le
        have h2 := congrArg List.length hxy
        simp at h2
        omega

theorem gap_merge (D kept tail : List ℤ) (n : ℤ)
    (hσ : GapList (D ++ kept))
    (hM : GapList (kept ++ tail))
    (hD : ∀ t ∈ D, t + 60000 ≤ n)
    (htail : ∀ u ∈ tail, n ≤ u) :
    GapList (D ++ (kept ++ tail)) := by
  intro t u mid hsub hmid
  rcases List.sublist_append_iff.1 hsub with ⟨x, y, hxy, hxD, hyM⟩
  cases x with
  | nil =>
      rw [List.nil_append] at hxy
      exact hM t u mid (by rw [hxy]; exact hyM) hmid
  | cons a x' =>
      have hxy2 : t = a ∧ mid ++ [u] = x' ++ y := by
        have := hxy
        rw [List.cons_append, List.cons.injEq] at this
        exact this
      obtain ⟨rfl, hxy3⟩ := hxy2
      cases y with
      | nil =>
          rw [List.append_nil] at hxy
          refine hσ t u mid ?_ hmid
          rw [hxy]
          exact hxD.trans (List.sublist_append_left D kept)
      | cons b y' =>
          have htD : t ∈ D := hxD.subset (by simp)
          rcases List.sublist_append_iff.1 hyM with ⟨y₁, y₂, hy12, hy1k, hy2t⟩
          cases hy2 : y₂ with
          | nil =>
              rw [hy2, List.append_nil] at hy12
              refine hσ t u mid ?_ hmid
              rw [hxy, hy12]
              exact List.Sublist.append hxD hy1k
          | cons c y₂' =>
              -- u is the last element and lands in the tail part
              have hulast : ((t :: (mid ++ [u])) : List ℤ).getLast? = some u := by
                show ((t :: mid) ++ [u]).getLast? = some u
                exact List.getLast?_concat _
              have hu2 : u ∈ y₂ := by
                have hy2ne : y₂ ≠ [] := by rw [hy2]; simp
                have hl2 : ((t :: x') ++ (b :: y')).getLast? = y₂.getLast? := by
                  rw [hy12, ← List.append_assoc]
                  exact List.getLast?_append_of_ne_nil _ hy2ne
                rw [← hxy, hulast] at hl2
                exact List.mem_of_mem_getLast? hl2.symm
              have hun : n ≤ u := htail u (hy2t.subset hu2)
              have htn : t + 60000 ≤ n := hD t htD
              omega

theorem acquire_snd (ts : List ℤ) (n s : ℤ) :
    (acquire ts n s).2 =
      (ts.filter (fun t => decide (n - t < 60000))) ++ [(acquire ts n s).1] := by
  simp only [acquire]
  by_cases hcap : 10 ≤ (ts.filter (fun t => decide (n - t < 60000))).length
  · rw [if_pos hcap]
  · rw [if_neg hcap]

theorem run_lb (inputs : List (ℤ × ℤ)) : ∀ ts b, LimInv ts b →
    serializedB ts b inputs = true → ∀ x ∈ runAcquires ts inputs, b ≤ x := by
  induction inputs with
  | nil => intro ts b _ _ x hx; simp [runAcquires] at hx
  | cons p rest ih =>
      obtain ⟨n, s⟩ := p
      intro ts b hinv hser x hx
      simp only [serializedB, Bool.and_eq_true, decide_eq_true_eq] at hser
      obtain ⟨⟨hbn, hs0⟩, hser'⟩ := hser
      have hstep := acquire_inv ts b n s hbn hs0 hinv
      simp only [runAcquires] at hx
      rcases List.mem_cons.1 hx with rfl | hx'
      · exact le_trans hbn hstep.2
      · have h1 := ih _ _ hstep.1 hser' x hx'
        have h2 := le_trans hbn hstep.2
        omega

theorem run_gap (inputs : List (ℤ × ℤ)) : ∀ ts b, LimInv ts b →
    serializedB ts b inputs = true → GapList (ts ++ runAcquires ts inputs) := by
  induction inputs with
  | nil =>
      intro ts b hinv _
      simpa [runAcquires] using hinv.2.2
  | cons p rest ih =>
      obtain ⟨n, s⟩ := p
      intro ts b hinv hser
      simp only [serializedB, Bool.and_eq_true, decide_eq_true_eq] at hser
      obtain ⟨⟨hbn, hs0⟩, hser'⟩ := hser
      have hstep := acquire_inv ts b n s hbn hs0 hinv
      have hIH := ih _ _ hstep.1 hser'
      simp only [runAcquires]
      obtain ⟨D, hD⟩ : ∃ D, ts.filter (fun t => !(decide (n - t < 60000))) = D := ⟨_, rfl⟩
      obtain ⟨kept, hkept⟩ : ∃ kept, ts.filter (fun t => decide (n - t < 60000)) = kept :=
        ⟨_, rfl⟩
      have hsplit : ts = D ++ kept := by
        rw [← hD, ← hkept]
        exact filter_window_split ts hinv.1 n
      have hacq2 : (acquire ts n s).2 = kept ++ [(acquire ts n s).1] := by
        rw [← hkept]
        exact acquire_snd ts n s
      have hM : GapList (kept ++
          ((acquire ts n s).1 :: runAcquires (acquire ts n s).2 rest)) := by
        have h0 := hIH
        rw [hacq2, List.append_assoc, List.singleton_append, ← hacq2] at h0
        exact h0
      have hσ2 : GapList (D ++ kept) := by
        rw [← hsplit]
        exact hinv.2.2
      have hDmem : ∀ t ∈ D, t + 60000 ≤ n := by
        intro t ht
        rw [← hD] at ht
        have := List.of_mem_filter ht
        simp at this
        omega
      have htl : ∀ u ∈ (acquire ts n s).1 :: runAcquires (acquire ts n s).2 rest,
          n ≤ u := by
        intro u hu
        rcases List.mem_cons.1 hu with rfl | hu'
        · exact hstep.2
        · have h1 := run_lb rest (acquire ts n s).2 (acquire ts n s).1 hstep.1 hser' u hu'
          have h2 := hstep.2
          omega
      have hmerge := gap_merge D kept
        ((acquire ts n s).1 :: runAcquires (acquire ts n s).2 rest) n hσ2 hM hDmem htl
      rw [← List.append_assoc, ← hsplit] at hmerge
      exact hmerge

/-- C3: for every serialized sequence of calls to the rate-limited fetch
wrapper (each call starting no earlier than the previous grant, with
nonnegative scheduling slack), and for every 60-second window, the number
of granted batch calls whose grant timestamps fall inside that window
never exceeds MAX_BATCH_CALLS_PER_MIN = 10, however bursty the call
times are. -/
theorem c3_rate_limited_fetch_window_bound (inputs : List (ℤ × ℤ)) (b₀ w : ℤ)
    (h : serializedB [] b₀ inputs = true) :
    ((runAcquires [] inputs).filter
      (fun g => decide (w < g) && decide (g ≤ w + 60000))).length ≤ 10 := by
  have hgap : GapList (runAcquires [] inputs) := by
    have h0 := run_gap inputs [] b₀ ⟨List.sorted_nil, by simp, gapList_nil⟩ h
    simpa using h0
  refine gapList_bound _ _ (List.filter_sublist _) hgap
    (fun x => w < x ∧ x ≤ w + 60000) ?_ ?_
  · intro x hx
    have := List.of_mem_filter hx
    simp at this
    exact this
  · intro a c ha hc hac
    omega

def c3inputs : List (ℤ × ℤ) :=
  [(0, 0), (0, 0), (0, 0), (0, 0), (0, 0), (0, 0), (0, 0), (0, 0), (0, 0), (0, 0),
   (0, 0), (60000, 0)]

theorem c3_rate_limited_fetch_window_bound_witness :
    serializedB [] 0 c3inputs = true ∧
      ((runAcquires [] c3inputs).filter
        (fun g => decide ((-1 : ℤ) < g) && decide (g ≤ -1 + 60000))).length ≤ 10 :=
  ⟨by decide, c3_rate_limited_fetch_window_bound c3inputs 0 (-1) (by decide)⟩

/-! ## Batch price refresh (updatePrices.js): merge, errors, dedup -/

/-- An in-memory inventory item during a price refresh: the canonical
store fields plus the transient `priceError` and the loosely-typed
`pricingPercent` override. -/
structure UItem where
  name : String := ""
  setName : Option String := none
  quantity : ℕ := 0
  marketPrice : Option ℚ := none
  yourPrice : Option ℚ := none
  lastUpdated : Option String := none
  tcgPlayerId : Option String := none
  imageUrl : Option String := none
  pricingPercent : JVal := .undefined
  priceError : Option String := none
deriving DecidableEq, Repr

/-- One variant of a returned card. -/
structure Variant where
  condition : Option String := none
  price : JVal := .undefined
deriving DecidableEq, Repr

/-- A card object of the batch pricing response. -/
structure Card where
  tcgplayerId : Option String := none
  set_name : Option String := none
  variants : List Variant := []
deriving DecidableEq, Repr

/-- JS `x != null` (false only for null and undefined). -/
def jvNotNull (v : JVal) : Bool := !(v = .jnull || v = .undefined)

/-- Variant selection of updatePrices.js: the variant whose condition is
exactly "Sealed", else the first variant with a non-null price, else none. -/
def selectVariant (variants : List Variant) : Option Variant :=
  match variants.find? (fun v => decide (v.condition = some "Sealed")) with
  | some v => some v
  | none => variants.find? (fun v => jvNotNull v.price)

def TCG_IMAGE_BASE : String := "https://product-images.tcgplayer.com/fit-in/437x437/"

def PRICE_MULTIPLIER : ℚ := 9 / 10

/-- The per-item body of the card loop in updatePrices.js `main`: on a
missing/invalid price set `priceError` and touch nothing else; on a valid
price clear `priceError` and write the price fields. -/
def processCardItem (card : Card) (nowIso : String) (it : UItem) : UItem :=
  match selectVariant card.variants with
  | none => { it with priceError := some "No sealed price returned" }
  | some v =>
      if jvNotNull v.price = false then
        { it with priceError := some "No sealed price returned" }
      else
        match jsNum v.price with
        | none => { it with priceError := some "Unreasonable price returned" }
        | some price =>
            if price ≤ 0 ∨ 10000 < price then
              { it with priceError := some "Unreasonable price returned" }
            else
              { it with
                priceError := none
                marketPrice := some price
                yourPrice := some (round2 (price * PRICE_MULTIPLIER))
                setName := optOr card.set_name (optOr it.setName none)
                lastUpdated := some nowIso
                imageUrl :=
                  match it.imageUrl, it.tcgPlayerId with
                  | none, some id => some (TCG_IMAGE_BASE ++ id ++ ".jpg")
                  | iu, _ => iu }

/-- Claim-side restatement of the selection policy, to compare with the
control flow of `processCardItem`: the reason on failure, the validated
price on success. -/
def selectPrice (variants : List Variant) : Except String ℚ :=
  match selectVariant variants with
  | none => .error "No sealed price returned"
  | some v =>
      if jvNotNull v.price = false then .error "No sealed price returned"
      else
        match jsNum v.price with
        | none => .error "Unreasonable price returned"
        | some price =>
            if price ≤ 0 ∨ 10000 < price then .error "Unreasonable price returned"
            else .ok price

/-- JSON serialization of an in-memory refresh item, as the store's
normalizer receives it on save: `priceError` and `pricingPercent` are
keys outside the allow-list. -/
def uItemToRaw (it : UItem) : RawItem :=
  { name := .jstr it.name
    setName := optToJVal it.setName
    quantity := .jnum it.quantity
    marketPrice := optQToJVal it.marketPrice
    yourPrice := optQToJVal it.yourPrice
    lastUpdated := optToJVal it.lastUpdated
    tcgPlayerId := optToJVal it.tcgPlayerId
    tcgPlayerUrl := .undefined
    imageUrl := optToJVal it.imageUrl
    game := .undefined
    extra :=
      (match it.pricingPercent with
       | .undefined => []
       | v => [("pricingPercent", v)]) ++
      (match it.priceError with
       | some e => [("priceError", .jstr e)]
       | none => []) }

/-- `processCardItem`, factored through the selection outcome. -/
theorem processCardItem_eq (card : Card) (nowIso : String) (it : UItem) :
    processCardItem card nowIso it =
      match selectPrice card.variants with
      | .error r => { it with priceError := some r }
      | .ok price =>
          { it with
            priceError := none
            marketPrice := some price
            yourPrice := some (round2 (price * PRICE_MULTIPLIER))
            setName := optOr card.set_name (optOr it.setName none)
            lastUpdated := some nowIso
            imageUrl :=
              match it.imageUrl, it.tcgPlayerId with
              | none, some id => some (TCG_IMAGE_BASE ++ id ++ ".jpg")
              | iu, _ => iu } := by
  unfold processCardItem selectPrice
  cases selectVariant card.variants with
  | none => rfl
  | some v =>
      by_cases hnull : jvNotNull v.price = false
      · simp [hnull]
      · simp only [if_neg hnull]
        cases jsNum v.price with
        | none => rfl
        | some price =>
            by_cases hb : price ≤ 0 ∨ 10000 < price
            · simp [hb]
            · simp [hb]

/-- C5: on a null or out-of-bounds fetched price the refresh only sets
`priceError` to the failure reason (existing marketPrice/yourPrice/
lastUpdated untouched); a successful observation clears `priceError`; and
the store's schema lock drops `priceError` entirely, so the persisted
record never depends on it. -/
theorem c5_priceError_lifecycle (card : Card) (nowIso : String) (it : UItem) :
    (∀ r, selectPrice card.variants = .error r →
      processCardItem card nowIso it = { it with priceError := some r }) ∧
    (∀ p, selectPrice card.variants = .ok p →
      (processCardItem card nowIso it).priceError = none) ∧
    (∀ e : Option String,
      normalizeItem (uItemToRaw { it with priceError := e }) =
        normalizeItem (uItemToRaw it)) := by
  refine ⟨?_, ?_, ?_⟩
  · intro r hr
    rw [processCardItem_eq, hr]
  · intro p hp
    rw [processCardItem_eq, hp]
  · intro e
    rfl

def c5card : Card :=
  { tcgplayerId := some "1"
    set_name := some "Some Set"
    variants := [{ condition := some "Near Mint", price := .jnull }] }

def c5item : UItem :=
  { name := "Old Box", quantity := 3, marketPrice := some 50, yourPrice := some 45,
    lastUpdated := some "@t0", tcgPlayerId := some "1" }

theorem c5_priceError_lifecycle_witness :
    (selectPrice c5card.variants = .error "No sealed price returned" ∧
      processCardItem c5card "@t1" c5item =
        { c5item with priceError := some "No sealed price returned" }) ∧
    normalizeItem (uItemToRaw { c5item with priceError := some "boom" }) =
      normalizeItem (uItemToRaw c5item) :=
  ⟨⟨rfl, (c5_priceError_lifecycle c5card "@t1" c5item).1 "No sealed price returned" rfl⟩,
   (c5_priceError_lifecycle c5card "@t1" c5item).2.2 (some "boom")⟩

/-! ### C4: concrete identity-preserving merge -/

def DEFAULT_PRICING_PERCENT : ℚ := 90

/-- `getPricingPercentForItem`: the optional per-item override, defaulted
to 90 and clamped into [1, 200]. -/
def getPricingPercentForItem (it : UItem) : ℚ :=
  if it.pricingPercent = .jnull ∨ it.pricingPercent = .undefined ∨ it.pricingPercent = .jstr ""
  then DEFAULT_PRICING_PERCENT
  else
    match jsNum it.pricingPercent with
    | none => DEFAULT_PRICING_PERCENT
    | some n => max 1 (min 200 (round2 n))

/-- The per-item assignment of the pricingPercent-aware refresh variant,
for an already validated price. -/
def applyCardItemPct (price : ℚ) (cardSet : Option String) (nowIso : String)
    (it : UItem) : UItem :=
  let pct := getPricingPercentForItem it
  { it with
    marketPrice := some (round2 price)
    yourPrice := some (round2 (price * (pct / 100)))
    setName := optOr cardSet (optOr it.setName none)
    lastUpdated := some nowIso
    imageUrl :=
      match it.imageUrl, it.tcgPlayerId with
      | none, some id => some (TCG_IMAGE_BASE ++ id ++ ".jpg")
      | iu, _ => iu }

/-- The per-item merge of `persistPricesForUser` (watchlist): stamp
lastCheckedAt, record the price, and lock the baseline
(`addedMarketPrice` / `addedAt`) on the first successful observation. -/
def persistPriceItem (existing : PItem) (fetched : Option ℚ) (checkedIso : String) :
    PItem :=
  let e1 := { existing with lastCheckedAt := some checkedIso }
  match fetched with
  | none => e1
  | some cur =>
      let e2 := { e1 with lastMarketPrice := some cur }
      if e2.addedMarketPrice = none then
        { e2 with addedMarketPrice := some cur, addedAt := optOr e2.addedAt (some checkedIso) }
      else e2

def c4item : UItem := { name := "Booster Box", quantity := 5, tcgPlayerId := some "111" }

def c4card : Card :=
  { tcgplayerId := some "111"
    set_name := some "Scarlet and Violet"
    variants := [{ condition := some "Sealed", price := .jnum 100 }] }

def c4pitem : PItem :=
  { tcgplayerId := "111", label := "", addedAt := none, addedMarketPrice := none,
    lastCheckedAt := none, lastMarketPrice := none, lastAlertedAt := none }

/-- C4: for the existing item with externalId "111", quantity 5, name
"Booster Box" and a fetched price of 100.00: quantity stays 5, marketPrice
becomes 100.00, yourPrice becomes 90.00 (the 90% default, both via the
fixed 0.9 multiplier and via `getPricingPercentForItem`), and the
watchlist baseline is locked to 100.00. -/
theorem c4_identity_preserving_merge :
    (processCardItem c4card "@now" c4item).quantity = 5 ∧
    (processCardItem c4card "@now" c4item).marketPrice = some 100 ∧
    (processCardItem c4card "@now" c4item).yourPrice = some 90 ∧
    (processCardItem c4card "@now" c4item).name = "Booster Box" ∧
    getPricingPercentForItem c4item = 90 ∧
    (applyCardItemPct 100 (some "Scarlet and Violet") "@now" c4item).yourPrice = some 90 ∧
    (persistPriceItem c4pitem (some 100) "@now").addedMarketPrice = some 100 ∧
    (persistPriceItem c4pitem (some 100) "@now").addedAt = some "@now" := by
  have h90 : round2 (100 * PRICE_MULTIPLIER) = 90 := by
    have hq : (100 * PRICE_MULTIPLIER * 100 + 1/2 : ℚ) = ((9000:ℤ):ℚ) + 1/2 := by
      norm_num [PRICE_MULTIPLIER]
    unfold round2
    rw [hq, Int.floor_int_add]
    norm_num
  have hpct : getPricingPercentForItem c4item = 90 := by decide
  have h90b : round2 (100 * (getPricingPercentForItem c4item / 100)) = 90 := by
    rw [hpct]
    have hq : (100 * ((90:ℚ) / 100)) = 100 * PRICE_MULTIPLIER := by
      norm_num [PRICE_MULTIPLIER]
    rw [hq, h90]
  refine ⟨by decide, by decide, ?_, by decide, hpct, ?_, by decide, by decide⟩
  · show some (round2 (100 * PRICE_MULTIPLIER)) = some 90
    rw [h90]
  · show some (round2 (100 * (getPricingPercentForItem c4item / 100))) = some 90
    rw [h90b]

/-! ### C9: identifier dedup and broadcast application -/

/-- The map key `String(item.tcgPlayerId).trim()`. -/
def idKey (it : UItem) : String := jsTrim (jsToString (optToJVal it.tcgPlayerId))

/-- JS `Map.get`. -/
def lookupIds : List (String × List UItem) → String → Option (List UItem)
  | [], _ => none
  | (k', l) :: rest, k => if k' = k then some l else lookupIds rest k

/-- `idToItems.set(id, listWithItemPushed)`. -/
def upsertAppend (m : List (String × List UItem)) (k : String) (it : UItem) :
    List (String × List UItem) :=
  match m with
  | [] => [(k, [it])]
  | (k', l) :: rest =>
      if k' = k then (k', l ++ [it]) :: rest else (k', l) :: upsertAppend rest k it

/-- The loop body building `idToItems`: skip blank ids, else push the item
onto its id's list. -/
def addCandidate (m : List (String × List UItem)) (it : UItem) :
    List (String × List UItem) :=
  let id := idKey it
  if id = "" then m else upsertAppend m id it

/-- The `idToItems` map built from the candidate list: one entry per
distinct trimmed id, each holding every item carrying it. -/
def buildIdToItems (candidates : List UItem) : List (String × List UItem) :=
  candidates.foldl addCandidate []

/-- The card loop applying the fetched update to every item of the bucket
for the card's id (in-place mutation of the shared objects). -/
def applyCardToMap (m : List (String × List UItem)) (cardId : String)
    (f : UItem → UItem) : List (String × List UItem) :=
  m.map (fun e => if e.1 = cardId then (e.1, e.2.map f) else e)

theorem lookupIds_upsert_same (m : List (String × List UItem)) (k : String) (it : UItem) :
    lookupIds (upsertAppend m k it) k = some (((lookupIds m k).getD []) ++ [it]) := by
  induction m with
  | nil => simp [upsertAppend, lookupIds]
  | cons e rest ih =>
      obtain ⟨k', l⟩ := e
      by_cases h : k' = k
      · subst h
        simp [upsertAppend, lookupIds]
      · simp [upsertAppend, lookupIds, h, ih]

theorem lookupIds_upsert_other (m : List (String × List UItem)) (k k' : String)
    (it : UItem) (h : k' ≠ k) :
    lookupIds (upsertAppend m k it) k' = lookupIds m k' := by
  have h2 : ¬ k = k' := fun hc => h hc.symm
  induction m with
  | nil => simp [upsertAppend, lookupIds, h2]
  | cons e rest ih =>
      obtain ⟨k0, l⟩ := e
      by_cases h0 : k0 = k
      · subst h0
        simp [upsertAppend, lookupIds, h2]
      · simp [upsertAppend, lookupIds, h0, ih]

theorem lookupIds_none_iff (m : List (String × List UItem)) (k : String) :
    lookupIds m k = none ↔ k ∉ m.map (fun e => e.1) := by
  induction m with
  | nil => simp [lookupIds]
  | cons e rest ih =>
      obtain ⟨k', l⟩ := e
      by_cases h : k' = k
      · subst h
        simp [lookupIds]
      · have h2 : ¬ k = k' := fun hc => h hc.symm
        simp [lookupIds, h, ih, h2]

theorem keys_upsert (m : List (String × List UItem)) (k : String) (it : UItem) :
    (upsertAppend m k it).map (fun e => e.1) =
      if lookupIds m k = none then m.map (fun e => e.1) ++ [k]
      else m.map (fun e => e.1) := by
  induction m with
  | nil => simp [upsertAppend, lookupIds]
  | cons e rest ih =>
      obtain ⟨k', l⟩ := e
      by_cases h : k' = k
      · subst h
        simp [upsertAppend, lookupIds]
      · simp [upsertAppend, lookupIds, h, ih]
        by_cases h2 : lookupIds rest k = none <;> simp [h2]

theorem addCandidate_nodup (m : List (String × List UItem)) (it : UItem)
    (h : (m.map (fun e => e.1)).Nodup) :
    ((addCandidate m it).map (fun e => e.1)).Nodup := by
  unfold addCandidate
  by_cases hid : idKey it = ""
  · simpa [hid] using h
  · simp only [if_neg hid]
    rw [keys_upsert]
    by_cases hl : lookupIds m (idKey it) = none
    · rw [if_pos hl, List.nodup_append]
      refine ⟨h, List.nodup_singleton _, ?_⟩
      intro a ha hak
      rw [List.mem_singleton] at hak
      subst hak
      exact (lookupIds_none_iff m _).1 hl ha
    · rw [if_neg hl]
      exact h

theorem build_nodup_aux (cands : List UItem) :
    ∀ m, (m.map (fun e => e.1)).Nodup →
      ((cands.foldl addCandidate m).map (fun e => e.1)).Nodup := by
  induction cands with
  | nil => intro m h; exact h
  | cons u rest ih =>
      intro m h
      exact ih (addCandidate m u) (addCandidate_nodup m u h)

theorem fold_preserves_mem (cands : List UItem) :
    ∀ m k l (it : UItem), lookupIds m k = some l → it ∈ l →
      ∃ l2, lookupIds (cands.foldl addCandidate m) k = some l2 ∧ it ∈ l2 := by
  induction cands with
  | nil => intro m k l it hl hit; exact ⟨l, hl, hit⟩
  | cons u rest ih =>
      intro m k l it hl hit
      show ∃ l2, lookupIds (rest.foldl addCandidate (addCandidate m u)) k = some l2 ∧ _
      unfold addCandidate
      by_cases hid : idKey u = ""
      · rw [if_pos hid]
        exact ih m k l it hl hit
      · rw [if_neg hid]
        by_cases hk : idKey u = k
        · subst hk
          refine ih _ _ (l ++ [u]) it ?_ (List.mem_append.2 (Or.inl hit))
          rw [lookupIds_upsert_same, hl]
          rfl
        · refine ih _ _ l it ?_ hit
          rw [lookupIds_upsert_other _ _ _ _ (fun hc => hk hc.symm)]
          exact hl

theorem build_mem_aux (cands : List UItem) :
    ∀ m (it : UItem), it ∈ cands → idKey it ≠ "" →
      ∃ l, lookupIds (cands.foldl addCandidate m) (idKey it) = some l ∧ it ∈ l := by
  induction cands with
  | nil => intro m it hit; simp at hit
  | cons u rest ih =>
      intro m it hit hid
      rcases List.mem_cons.1 hit with rfl | hrest
      · show ∃ l, lookupIds (rest.foldl addCandidate (addCandidate m it)) _ = some l ∧ _
        have hlk : lookupIds (addCandidate m it) (idKey it) =
            some (((lookupIds m (idKey it)).getD []) ++ [it]) := by
          unfold addCandidate
          rw [if_neg hid]
          exact lookupIds_upsert_same m (idKey it) it
        exact fold_preserves_mem rest (addCandidate m it) (idKey it) _ it hlk (by simp)
      · exact ih (addCandidate m u) it hrest hid

theorem lookup_applyCard (m : List (String × List UItem)) (cardId : String)
    (f : UItem → UItem) (l : List UItem) (h : lookupIds m cardId = some l) :
    lookupIds (applyCardToMap m cardId f) cardId = some (l.map f) := by
  induction m with
  | nil => simp [lookupIds] at h
  | cons e rest ih =>
      obtain ⟨k, l0⟩ := e
      by_cases hk : k = cardId
      · subst hk
        have hl : l0 = l := by simpa [lookupIds] using h
        subst hl
        have hlist : applyCardToMap ((k, l0) :: rest) k f =
            (k, l0.map f) :: applyCardToMap rest k f := by
          simp [applyCardToMap]
        rw [hlist]
        simp [lookupIds]
      · have h2 : lookupIds rest cardId = some l := by simpa [lookupIds, hk] using h
        have hlist : applyCardToMap ((k, l0) :: rest) cardId f =
            (k, l0) :: applyCardToMap rest cardId f := by
          simp [applyCardToMap, hk]
        rw [hlist]
        simp only [lookupIds]
        rw [if_neg hk]
        exact ih h2

/-- C9: the refresh deduplicates identifiers — the idToItems map has one
entry per distinct trimmed id (so each id appears exactly once in the
lookup list sent to the pricing service), every candidate carrying an id
lands in that id's bucket, and the card loop applies the single fetched
update to every item of the bucket. -/
theorem c9_dedup_single_lookup (candidates : List UItem) :
    ((buildIdToItems candidates).map (fun e => e.1)).Nodup ∧
    (∀ it ∈ candidates, idKey it ≠ "" →
      ∃ l, lookupIds (buildIdToItems candidates) (idKey it) = some l ∧ it ∈ l) ∧
    (∀ cardId f l, lookupIds (buildIdToItems candidates) cardId = some l →
      lookupIds (applyCardToMap (buildIdToItems candidates) cardId f) cardId =
        some (l.map f)) := by
  refine ⟨?_, ?_, ?_⟩
  · exact build_nodup_aux candidates [] (by simp)
  · intro it hit hid
    exact build_mem_aux candidates [] it hit hid
  · intro cardId f l h
    exact lookup_applyCard _ cardId f l h

def c9it1 : UItem := { name := "Box A", quantity := 1, tcgPlayerId := some "7" }

def c9it2 : UItem := { name := "Box B", quantity := 2, tcgPlayerId := some "7" }

def c9cands : List UItem := [c9it1, c9it2]

theorem c9_dedup_single_lookup_witness :
    ((buildIdToItems c9cands).map (fun e => e.1)).Nodup ∧
    (c9it1 ∈ c9cands ∧ idKey c9it1 ≠ "") ∧
    (∃ l, lookupIds (buildIdToItems c9cands) (idKey c9it1) = some l ∧ c9it1 ∈ l) ∧
    lookupIds (applyCardToMap (buildIdToItems c9cands) "7"
        (fun u => { u with marketPrice := some 5 })) "7" =
      some ([c9it1, c9it2].map (fun u => { u with marketPrice := some 5 })) :=
  ⟨(c9_dedup_single_lookup c9cands).1,
   ⟨by decide, by decide⟩,
   (c9_dedup_single_lookup c9cands).2.1 c9it1 (by decide) (by decide),
   (c9_dedup_single_lookup c9cands).2.2 "7" (fun u => { u with marketPrice := some 5 })
     [c9it1, c9it2] (by decide)⟩

/-! ## Admin sync POST /api/inventory (server, C8): new-stock events -/

/-- A row of the admin payload. -/
structure RawRow where
  name : JVal := .undefined
  tcgPlayerId : JVal := .undefined
  pricingPercent : JVal := .undefined
  quantity : JVal := .undefined
  game : JVal := .undefined
deriving DecidableEq, Repr

/-- A merged/created record the handler pushes into the next inventory. -/
structure SrvItem where
  name : String
  tcgPlayerId : Option String
  quantity : ℕ
  game : Option String
  pricingPercent : Option ℚ
  marketPrice : Option ℚ
  yourPrice : Option ℚ
  lastUpdated : Option String
  setName : Option String
  imageUrl : Option String
  tcgPlayerUrl : Option String
deriving DecidableEq, Repr

/-- `String(v || "")` as the handler applies it to name/tcgPlayerId. -/
def jsToStringOrEmpty : JVal → String
  | .jnull => ""
  | .undefined => ""
  | .jstr s => s
  | .jnum q => if q = 0 then "" else numToStr q
  | .jbool b => if b then "true" else ""
  | .jobj => "[object Object]"

/-- The handler's optional pricingPercent parse (clamped into [1, 200]). -/
def parsePricingPercent (v : JVal) : Option ℚ :=
  if v = .jnull ∨ v = .undefined ∨ v = .jstr "" then none
  else
    match jsNum v with
    | none => none
    | some n => some (max 1 (min 200 (round2 n)))

/-- The handler's game normalization. -/
def parseGame (v : JVal) : Option String :=
  let gameRaw := lowerStr (jsTrim (jsToStringOrEmpty v))
  if gameRaw = "pokemon" ∨ gameRaw = "pokémon" ∨ gameRaw = "poke" then some "pokemon"
  else if gameRaw = "magic" ∨ gameRaw = "mtg" ∨ gameRaw = "magic: the gathering" then
    some "mtg"
  else if gameRaw = "other" ∨ gameRaw = "misc" then some "other"
  else if gameRaw = "" then none
  else some gameRaw

/-- JS `Map.set` for the identity indexes (last writer wins). -/
def mapSet (m : List (String × Item)) (k : String) (v : Item) : List (String × Item) :=
  match m with
  | [] => [(k, v)]
  | (k', v') :: rest => if k' = k then (k', v) :: rest else (k', v') :: mapSet rest k v

def mapGet : List (String × Item) → String → Option Item
  | [], _ => none
  | (k', v) :: rest, k => if k' = k then some v else mapGet rest k

/-- The two identity indexes over the PRE-sync inventory: by tcgPlayerId
and by lower-cased name. -/
def buildMaps (old : List Item) : List (String × Item) × List (String × Item) :=
  old.foldl (fun ms item =>
    let m1 := match item.tcgPlayerId with
      | some s => if s = "" then ms.1 else mapSet ms.1 s item
      | none => ms.1
    let m2 := if item.name = "" then ms.2 else mapSet ms.2 (lowerStr item.name) item
    (m1, m2)) ([], [])

/-- `(tcgId && byId.get(tcgId)) || (name && byName.get(name.toLowerCase()))
|| null`. -/
def findExisting (maps : List (String × Item) × List (String × Item))
    (tcgId name : String) : Option Item :=
  match (if tcgId = "" then none else mapGet maps.1 tcgId) with
  | some ex => some ex
  | none => if name = "" then none else mapGet maps.2 (lowerStr name)

/-- One payload row: `none` when the row is skipped, else the pushed record
and whether it was also pushed onto `newItems` (the new-stock event list). -/
def processRow (maps : List (String × Item) × List (String × Item)) (row : RawRow) :
    Option (SrvItem × Bool) :=
  let name := jsTrim (jsToStringOrEmpty row.name)
  let tcgId := jsTrim (jsToStringOrEmpty row.tcgPlayerId)
  let pricingPercent := parsePricingPercent row.pricingPercent
  let quantity := toIntJs row.quantity
  let game := parseGame row.game
  if name = "" ∧ tcgId = "" then none
  else
    match findExisting maps tcgId name with
    | some ex =>
        let updated : SrvItem :=
          { name := if name = "" then ex.name else name
            tcgPlayerId := if tcgId = "" then ex.tcgPlayerId else some tcgId
            quantity := quantity
            game := match game with
              | some g => some g
              | none => ex.game
            pricingPercent := pricingPercent
            marketPrice := ex.marketPrice
            yourPrice := ex.yourPrice
            lastUpdated := ex.lastUpdated
            setName := ex.setName
            imageUrl := ex.imageUrl
            tcgPlayerUrl := ex.tcgPlayerUrl }
        some (updated, decide (ex.quantity ≤ 0 ∧ 0 < quantity))
    | none =>
        let created : SrvItem :=
          { name := if name = "" then "Unnamed product" else name
            tcgPlayerId := if tcgId = "" then none else some tcgId
            quantity := quantity
            game := game
            pricingPercent := pricingPercent
            marketPrice := none
            yourPrice := none
            lastUpdated := none
            setName := none
            imageUrl := if tcgId = "" then none
              else some (TCG_IMAGE_BASE ++ tcgId ++ ".jpg")
            tcgPlayerUrl := if tcgId = "" then none
              else some ("https://www.tcgplayer.com/product/" ++ tcgId) }
        some (created, decide (0 < quantity))

/-- The whole handler loop: returns (nextInventory, newItems).  `newItems`
is both returned in the HTTP response and pushed to the Discord stock
webhook. -/
def processPost (old : List Item) (payload : List RawRow) :
    List SrvItem × List SrvItem :=
  let maps := buildMaps old
  payload.foldl (fun acc row =>
    match processRow maps row with
    | none => acc
    | some (item, isNew) =>
        (acc.1 ++ [item], if isNew then acc.2 ++ [item] else acc.2)) ([], [])

def c8oldItem : Item :=
  { name := "Elite Trainer Box", setName := none, quantity := 2, marketPrice := none,
    yourPrice := none, lastUpdated := none, tcgPlayerId := some "1",
    tcgPlayerUrl := none, imageUrl := none, game := none }

def c8row : RawRow :=
  { name := .jstr "Elite Trainer Box", tcgPlayerId := .jstr "1", quantity := .jnum 3 }

/-- C8 counterexample: a record whose quantity increases from 2 to 3 across
the sync produces NO event — the handler's `newItems` list stays empty,
because events are only emitted on a transition from quantity ≤ 0 to > 0,
not on arbitrary increases (and the emitted objects carry no
oldQuantity/delta fields at all). -/
theorem c8_counterexample :
    (processPost [c8oldItem] [c8row]).2 = [] ∧
    c8oldItem.quantity = 2 ∧
    ((processPost [c8oldItem] [c8row]).1.map (fun i => i.quantity)) = [3] := by
  refine ⟨?_, ?_, ?_⟩ <;> decide

/-- C8 (amended): the handler emits a new-stock entry for a matched record
exactly when the pre-sync quantity was ≤ 0 and the new quantity is
positive, and for a created record exactly when its quantity is positive;
the entry is the updated record itself (no oldQuantity / delta), collected
in `newItems`, which the handler both returns in the response and
dispatches to the Discord webhook. -/
theorem c8_amended_event_condition
    (maps : List (String × Item) × List (String × Item)) (row : RawRow)
    (item : SrvItem) (isNew : Bool)
    (h : processRow maps row = some (item, isNew)) :
    (∀ ex, findExisting maps (jsTrim (jsToStringOrEmpty row.tcgPlayerId))
        (jsTrim (jsToStringOrEmpty row.name)) = some ex →
      isNew = decide (ex.quantity ≤ 0 ∧ 0 < toIntJs row.quantity)) ∧
    (findExisting maps (jsTrim (jsToStringOrEmpty row.tcgPlayerId))
        (jsTrim (jsToStringOrEmpty row.name)) = none →
      isNew = decide (0 < toIntJs row.quantity)) := by
  unfold processRow at h
  constructor
  · intro ex hex
    by_cases hskip : jsTrim (jsToStringOrEmpty row.name) = "" ∧
        jsTrim (jsToStringOrEmpty row.tcgPlayerId) = ""
    · rw [if_pos hskip] at h
      simp at h
    · rw [if_neg hskip] at h
      rw [hex] at h
      have hp := congrArg Prod.snd (Option.some.inj h)
      exact hp.symm
  · intro hex
    by_cases hskip : jsTrim (jsToStringOrEmpty row.name) = "" ∧
        jsTrim (jsToStringOrEmpty row.tcgPlayerId) = ""
    · rw [if_pos hskip] at h
      simp at h
    · rw [if_neg hskip] at h
      rw [hex] at h
      have hp := congrArg Prod.snd (Option.some.inj h)
      exact hp.symm

theorem c8_amended_event_condition_witness :
    (processRow (buildMaps [c8oldItem]) c8row =
      some ((processRow (buildMaps [c8oldItem]) c8row).get (by decide)) ∧
     findExisting (buildMaps [c8oldItem]) (jsTrim (jsToStringOrEmpty c8row.tcgPlayerId))
        (jsTrim (jsToStringOrEmpty c8row.name)) = some c8oldItem) ∧
    ((processRow (buildMaps [c8oldItem]) c8row).get (by decide)).2 =
      decide (c8oldItem.quantity ≤ 0 ∧ 0 < toIntJs c8row.quantity) :=
  ⟨⟨by decide, by decide⟩,
   (c8_amended_event_condition (buildMaps [c8oldItem]) c8row
      ((processRow (buildMaps [c8oldItem]) c8row).get (by decide)).1
      ((processRow (buildMaps [c8oldItem]) c8row).get (by decide)).2
      (by decide)).1 c8oldItem (by decide)⟩

/-! ## Backup rotation (inventoryStore.js, C7)

The backups directory is modelled as a list of (filename, mtimeMs)
entries.  Each write of the store copies the current file to
`backups/inventory-<stamp>.json` (overwriting a same-named file) and then
prunes, keeping the `MAX_BACKUPS` most recently modified matching files. -/

def MAX_BACKUPS : ℕ := 30

def backupName (stamp : String) : String := "inventory-" ++ stamp ++ ".json"

def jsStartsWith (s pre : String) : Bool := pre.data.isPrefixOf s.data

def jsEndsWith (s suf : String) : Bool := suf.data.isSuffixOf s.data

/-- The `listBackups` filter: names `inventory-*.json`. -/
def isBackupFile (f : String) : Bool := jsStartsWith f "inventory-" && jsEndsWith f ".json"

/-- `listBackups`: matching entries sorted by mtime, newest first. -/
def listBackups (dir : List (String × ℤ)) : List (String × ℤ) :=
  List.insertionSort (fun a b => b.2 ≤ a.2) (dir.filter (fun e => isBackupFile e.1))

/-- `pruneBackups`: delete every matching file beyond the MAX_BACKUPS most
recent. -/
def pruneBackupsModel (dir : List (String × ℤ)) : List (String × ℤ) :=
  let toDelete := ((listBackups dir).drop MAX_BACKUPS).map (fun e => e.1)
  dir.filter (fun e => !(toDelete.contains e.1))

/-- `fs.copyFileSync` into the backups dir (overwrite same name). -/
def copyBackup (dir : List (String × ℤ)) (name : String) (mtime : ℤ) :
    List (String × ℤ) :=
  dir.filter (fun e => !(e.1 = name)) ++ [(name, mtime)]

/-- One `makeBackupIfExists` call (the store file exists throughout C7). -/
def makeBackupStep (dir : List (String × ℤ)) (stamp : String) (mtime : ℤ) :
    List (String × ℤ) :=
  pruneBackupsModel (copyBackup dir (backupName stamp) mtime)

/-- The backups directory after a sequence of writes, each given by its
timestamp-for-filename stamp and its file mtime. -/
def runBackups (dir : List (String × Int)) (writes : List (String × ℤ)) :
    List (String × ℤ) :=
  writes.foldl (fun d w => makeBackupStep d w.1 w.2) dir

/-- A write's backup directory entry. -/
def bfile (w : String × ℤ) : String × ℤ := (backupName w.1, w.2)

theorem isBackupFile_backupName (st : String) : isBackupFile (backupName st) = true := by
  unfold isBackupFile backupName jsStartsWith jsEndsWith
  rw [Bool.and_eq_true]
  constructor
  · rw [List.isPrefixOf_iff_prefix]
    rw [String.data_append, String.data_append]
    rw [List.append_assoc]
    exact List.prefix_append _ _
  · rw [List.isSuffixOf_iff_suffix]
    rw [String.data_append]
    exact List.suffix_append _ _

theorem backupName_inj (s t : String) (h : s ≠ t) : backupName s ≠ backupName t := by
  intro hc
  apply h
  unfold backupName at hc
  have hd := congrArg String.data hc
  rw [String.data_append, String.data_append, String.data_append,
    String.data_append] at hd
  have h1 := List.append_cancel_right hd
  have h2 := List.append_cancel_left h1
  cases s with
  | mk ds =>
      cases t with
      | mk dt =>
          simp at h2
          rw [h2]

theorem orderedInsert_append_of_not (r : String × ℤ → String × ℤ → Prop)
    [DecidableRel r] (a : String × ℤ) (l : List (String × ℤ))
    (h : ∀ b ∈ l, ¬ r a b) : List.orderedInsert r a l = l ++ [a] := by
  induction l with
  | nil => rfl
  | cons b t ih =>
      simp only [List.orderedInsert]
      rw [if_neg (h b (by simp))]
      simp [ih (fun x hx => h x (by simp [hx]))]

/-- Sorting a strictly ascending-by-mtime directory newest-first just
reverses it. -/
theorem sortDesc_of_ascending (l : List (String × ℤ))
    (h : l.Pairwise (fun x y => x.2 < y.2)) :
    List.insertionSort (fun a b => b.2 ≤ a.2) l = l.reverse := by
  induction l with
  | nil => rfl
  | cons a t ih =>
      rw [List.pairwise_cons] at h
      show List.orderedInsert _ a (List.insertionSort _ t) = (a :: t).reverse
      rw [ih h.2, orderedInsert_append_of_not]
      · rw [List.reverse_cons]
      · intro b hb hc
        have hc2 : b.2 ≤ a.2 := hc
        have h1 := h.1 b (List.mem_reverse.1 hb)
        omega

theorem makeBackupStep_eq (z : List (String × ℤ)) (s : String) (m : ℤ)
    (hlen : z.length ≤ 30)
    (hmono : z.Pairwise (fun x y => x.2 < y.2))
    (hzname : z.Pairwise (fun x y => x.1 ≠ y.1))
    (hm : ∀ zi ∈ z, zi.2 < m)
    (hname : ∀ zi ∈ z, zi.1 ≠ s) :
    makeBackupStep (z.map bfile) s m =
      (if z.length + 1 ≤ 30 then (z ++ [(s, m)]).map bfile
       else ((z ++ [(s, m)]).drop 1).map bfile) := by
  have hcopy : copyBackup (z.map bfile) (backupName s) m = (z ++ [(s, m)]).map bfile := by
    unfold copyBackup
    rw [List.map_append]
    refine congrArg (· ++ [(backupName s, m)]) ?_
    refine List.filter_eq_self.2 ?_
    intro e he
    obtain ⟨zi, hzi, rfl⟩ := List.mem_map.1 he
    simp only [Bool.not_eq_true']
    exact decide_eq_false (backupName_inj zi.1 s (hname zi hzi))
  have hallb : ∀ e ∈ (z ++ [(s, m)]).map bfile, isBackupFile e.1 = true := by
    intro e he
    obtain ⟨w, _, rfl⟩ := List.mem_map.1 he
    exact isBackupFile_backupName w.1
  have hmono2 : ((z ++ [(s, m)]).map bfile).Pairwise (fun x y => x.2 < y.2) := by
    refine List.Pairwise.map bfile (fun a b hab => hab) ?_
    rw [List.pairwise_append]
    refine ⟨hmono, List.pairwise_singleton _ _, ?_⟩
    intro a ha b hb
    rw [List.mem_singleton] at hb
    subst hb
    exact hm a ha
  have hlist : listBackups ((z ++ [(s, m)]).map bfile) =
      ((z ++ [(s, m)]).map bfile).reverse := by
    unfold listBackups
    rw [List.filter_eq_self.2 hallb]
    exact sortDesc_of_ascending _ hmono2
  unfold makeBackupStep
  rw [hcopy]
  unfold pruneBackupsModel
  rw [hlist]
  by_cases hsmall : z.length + 1 ≤ 30
  · rw [if_pos hsmall]
    have hdrop : (((z ++ [(s, m)]).map bfile).reverse.drop MAX_BACKUPS) = [] := by
      refine List.drop_eq_nil_of_le ?_
      simp [MAX_BACKUPS]
      omega
    rw [hdrop]
    simp only [List.map_nil]
    refine List.filter_eq_self.2 ?_
    intro e _
    rfl
  · rw [if_neg hsmall]
    have hz30 : z.length = 30 := by omega
    obtain ⟨z0, zt, rfl⟩ : ∃ z0 zt, z = z0 :: zt := by
      cases z with
      | nil => simp at hz30
      | cons z0 zt => exact ⟨z0, zt, rfl⟩
    have hdrop1 : ((z0 :: zt) ++ [(s, m)]).drop 1 = zt ++ [(s, m)] := by simp
    rw [hdrop1]
    have hrev : (((z0 :: zt) ++ [(s, m)]).map bfile).reverse =
        ((zt ++ [(s, m)]).map bfile).reverse ++ [bfile z0] := by
      rw [List.cons_append, List.map_cons, List.reverse_cons]
    have hlen2 : ((zt ++ [(s, m)]).map bfile).reverse.length = 30 := by
      simp at hz30 ⊢
      omega
    have hdrop30 : ((((z0 :: zt) ++ [(s, m)]).map bfile).reverse.drop MAX_BACKUPS) =
        [bfile z0] := by
      rw [hrev]
      rw [show MAX_BACKUPS = ((zt ++ [(s, m)]).map bfile).reverse.length from hlen2.symm]
      exact List.drop_left _ _
    rw [hdrop30]
    have hnames : ∀ w ∈ zt ++ [(s, m)], (bfile w).1 ≠ (bfile z0).1 := by
      intro w hw
      rcases List.mem_append.1 hw with hwz | hws
      · rw [List.pairwise_cons] at hzname
        exact backupName_inj w.1 z0.1 (fun hc => hzname.1 w hwz hc.symm)
      · rw [List.mem_singleton] at hws
        subst hws
        exact backupName_inj s z0.1 (fun hc => hname z0 (by simp) hc.symm)
    have hmain : List.map bfile ((z0 :: zt) ++ [(s, m)]) =
        bfile z0 :: List.map bfile (zt ++ [(s, m)]) := rfl
    rw [hmain, List.filter_cons]
    have hz0del : ¬ ((!(List.map (fun e => e.1) [bfile z0]).contains (bfile z0).1) = true) := by
      simp [List.contains]
    rw [if_neg hz0del]
    refine List.filter_eq_self.2 ?_
    intro e he
    obtain ⟨w, hw, rfl⟩ := List.mem_map.1 he
    simp only [List.map_cons, List.map_nil, Bool.not_eq_true']
    simp [List.contains]
    exact hnames w hw

theorem runBackups_inv (writes : List (String × ℤ)) :
    ∀ z : List (String × ℤ),
      z.length ≤ 30 →
      (z ++ writes).Pairwise (fun a b => a.2 < b.2 ∧ a.1 ≠ b.1) →
      runBackups (z.map bfile) writes =
        ((z ++ writes).drop (z.length + writes.length - 30)).map bfile := by
  induction writes with
  | nil =>
      intro z hlen _
      have h1 : z.length + ([] : List (String × ℤ)).length - 30 = 0 := by
        simp
        omega
      rw [h1, List.append_nil, List.drop_zero]
      rfl
  | cons w rest ih =>
      obtain ⟨s, m⟩ := w
      intro z hlen hp0
      have hp := hp0
      rw [List.pairwise_append] at hp
      obtain ⟨hpz, hpr, hcross⟩ := hp
      have hmono : z.Pairwise (fun x y => x.2 < y.2) := hpz.imp (fun hab => hab.1)
      have hzname : z.Pairwise (fun x y => x.1 ≠ y.1) := hpz.imp (fun hab => hab.2)
      have hm : ∀ zi ∈ z, zi.2 < m :=
        fun zi hzi => (hcross zi hzi (s, m) (by simp)).1
      have hname : ∀ zi ∈ z, zi.1 ≠ s :=
        fun zi hzi => (hcross zi hzi (s, m) (by simp)).2
      have hpz' : ((z ++ [(s, m)]) ++ rest).Pairwise (fun a b => a.2 < b.2 ∧ a.1 ≠ b.1) := by
        rw [List.append_assoc, List.singleton_append]
        exact hp0
      show runBackups (makeBackupStep (z.map bfile) s m) rest = _
      rw [makeBackupStep_eq z s m hlen hmono hzname hm hname]
      by_cases hsmall : z.length + 1 ≤ 30
      · rw [if_pos hsmall]
        have hres := ih (z ++ [(s, m)]) (by simp; omega) hpz'
        rw [hres]
        rw [List.append_assoc, List.singleton_append]
        have harith : (z ++ [(s, m)]).length + rest.length - 30 =
            z.length + ((s, m) :: rest).length - 30 := by
          simp
          omega
        rw [harith]
      · rw [if_neg hsmall]
        have hz30 : z.length = 30 := by omega
        have hzne : z ≠ [] := by
          intro hc
          rw [hc] at hz30
          simp at hz30
        have hdropz : (z ++ [(s, m)]).drop 1 = z.drop 1 ++ [(s, m)] := by
          cases z with
          | nil => exact absurd rfl hzne
          | cons z0 zt => simp
        rw [hdropz]
        have hsub : List.Sublist ((z.drop 1 ++ [(s, m)]) ++ rest) ((z ++ [(s, m)]) ++ rest) := by
          exact List.Sublist.append (List.Sublist.append (List.drop_sublist 1 z)
            (List.Sublist.refl _)) (List.Sublist.refl _)
      -- invariant hypotheses for the shortened prefix
        have hpz'' := hpz'.sublist hsub
        have hres := ih (z.drop 1 ++ [(s, m)]) (by simp [hz30]) hpz''
        rw [hres]
        have hlist2 : (z.drop 1 ++ [(s, m)]) ++ rest = (z ++ ((s, m) :: rest)).drop 1 := by
          cases z with
          | nil => exact absurd rfl hzne
          | cons z0 zt => simp
        rw [hlist2, List.drop_drop]
        have harith2 : 1 + ((z.drop 1 ++ [(s, m)]).length + rest.length - 30) =
            z.length + ((s, m) :: rest).length - 30 := by
          simp only [List.length_append, List.length_drop, List.length_cons,
            List.length_nil]
          omega
        rw [harith2]

/-- The claim-side statement restated over the model: after
`MAX_BACKUPS + k` successive writes (k ≥ 1) of the existing store file,
with strictly increasing mtimes and pairwise distinct timestamp stamps,
the backups directory holds exactly the `MAX_BACKUPS` most recent writes'
backup files, in order. -/
theorem c7_backup_retention (writes : List (String × ℤ)) (k : ℕ)
    (hlen : writes.length = MAX_BACKUPS + k) (hk : 1 ≤ k)
    (hw : writes.Pairwise (fun a b => a.2 < b.2 ∧ a.1 ≠ b.1)) :
    runBackups [] writes =
      ((writes.drop (writes.length - MAX_BACKUPS)).map bfile) ∧
    (runBackups [] writes).length = MAX_BACKUPS := by
  have h0 := runBackups_inv writes [] (by simp) (by simpa using hw)
  simp only [List.map_nil, List.nil_append, List.length_nil, Nat.zero_add] at h0
  constructor
  · rw [h0]
    rfl
  · rw [h0]
    rw [List.length_map, List.length_drop]
    rw [hlen]
    show MAX_BACKUPS + k - (MAX_BACKUPS + k - MAX_BACKUPS) = MAX_BACKUPS
    omega

def c7writes : List (String × ℤ) :=
  (List.range 31).map (fun i => (toString i, (i : ℤ)))

theorem c7_backup_retention_witness :
    (c7writes.length = MAX_BACKUPS + 1 ∧ 1 ≤ 1 ∧
      c7writes.Pairwise (fun a b => a.2 < b.2 ∧ a.1 ≠ b.1)) ∧
    (runBackups [] c7writes =
      ((c7writes.drop (c7writes.length - MAX_BACKUPS)).map bfile) ∧
     (runBackups [] c7writes).length = MAX_BACKUPS) :=
  ⟨⟨by decide, le_refl 1, by decide⟩,
   c7_backup_retention c7writes 1 (by decide) (le_refl 1) (by decide)⟩

end SealedMenu
